import Mathlib

/-!
# Verification of the px2cc Action Processing Pipeline

Shallow embedding of `src/PromptXActionProcessor.js` (classes `RoleLoader`,
`DependencyAnalyzer`, `CognitionLoader`, `LayerAssembler`, and the driver
`PromptXActionProcessor.processRole`).

Strings are modelled as `List Char` / `String`.  The JavaScript regular
expressions used by the source are embedded as explicit deterministic
scanners; each scanner implements the exact leftmost-match / greedy
backtracking behaviour of the corresponding `String.prototype.replace`,
`String.prototype.match` or `String.prototype.matchAll` call.  External
effects (the `@promptx/core` resource manager, `fs.access`) are modelled as
explicit oracle parameters, so every pipeline stage becomes a pure function
of its inputs together with the oracle outcomes it observes.
-/

namespace Px2cc

/-- JavaScript `\s` character class (also the character set removed by
`String.prototype.trim`): ASCII whitespace together with the Unicode
whitespace code points recognised by ECMAScript. -/
def isWs (c : Char) : Bool :=
  c = ' ' || c = '\t' || c = '\n' || c = '\r' || c = '\x0b' || c = '\x0c' ||
  c = ' ' || c = ' ' || (' ' ≤ c && c ≤ ' ') ||
  c = ' ' || c = ' ' || c = ' ' || c = ' ' ||
  c = '　' || c = '﻿'

/-- Character class `[^\s\>\<\n]` used for the `resource` part of a
reference token (`\n` is already in `\s`). -/
def resChar (c : Char) : Bool :=
  !(isWs c) && c ≠ '>' && c ≠ '<'

/-- `'\n'` is a whitespace character. -/
theorem isWs_nl : isWs '\n' = true := by decide

/-- A character of class `resChar` is not `'\n'`. -/
theorem resChar_ne_nl {c : Char} (h : resChar c = true) : c ≠ '\n' := by
  intro hc; subst hc; simp [resChar, isWs] at h

/-! ## `cleanContent` (LayerAssembler, lines 373–386)

```js
return content
  .replace(/<reference[^>]*>/g, '')
  .replace(/<\/reference>/g, '')
  .replace(/\s*@!?[^:]+:\/\/[^\s\>\<\n]+\s*/g, '')
  .replace(/\n\s*\n\s*\n/g, '\n\n')
  .trim();
```
-/

/-- Literal-pattern test: does `l` start with `pat`, comparing characters
with `eqc`? -/
def litPre (eqc : Char → Char → Bool) : List Char → List Char → Bool
  | [], _ => true
  | _ :: _, [] => false
  | p :: ps, c :: cs => eqc p c && litPre eqc ps cs

/-- After the literal `<reference`, the regex `[^>]*>` (greedy `[^>]*`
cannot cross a `>`, so the match extends to the first `>`): drop through the
first `'>'`, failing if there is none. -/
def dropTag : List Char → Option (List Char)
  | [] => none
  | c :: rest => if c = '>' then some rest else dropTag rest

theorem dropTag_length {l r : List Char} (h : dropTag l = some r) :
    r.length < l.length := by
  induction l with
  | nil => simp [dropTag] at h
  | cons c rest ih =>
    by_cases hc : c = '>'
    · simp [dropTag, hc] at h; simp [← h]
    · simp only [dropTag, if_neg hc] at h
      exact Nat.lt_trans (ih h) (Nat.lt_succ_self _)

/-- The characters of `"<reference"`. -/
def refOpenPat : List Char := ['<', 'r', 'e', 'f', 'e', 'r', 'e', 'n', 'c', 'e']

/-- One attempt of the regex `<reference[^>]*>` anchored at the head of `l`:
returns the remainder after the match, or `none`. -/
def refOpenMatch (l : List Char) : Option (List Char) :=
  if litPre (fun a b => a == b) refOpenPat l then dropTag (l.drop refOpenPat.length)
  else none

theorem refOpenMatch_length {l r : List Char} (h : refOpenMatch l = some r) :
    r.length < l.length := by
  unfold refOpenMatch at h
  by_cases hp : litPre (fun a b => a == b) refOpenPat l
  · rw [if_pos hp] at h
    have h1 := dropTag_length h
    have h2 : (l.drop refOpenPat.length).length ≤ l.length := by
      rw [List.length_drop]; omega
    omega
  · rw [if_neg hp] at h; exact absurd h (by simp)

/-- Global replace of `/<reference[^>]*>/g` by the empty string:
left-to-right scan, at each position attempt the anchored match; on success
skip past the match, otherwise keep the character and move one position
right. -/
def stripRefOpen : List Char → List Char
  | [] => []
  | c :: rest =>
    if h : (refOpenMatch (c :: rest)).isSome then
      stripRefOpen ((refOpenMatch (c :: rest)).get h)
    else c :: stripRefOpen rest
termination_by l => l.length
decreasing_by
  · exact refOpenMatch_length (Option.some_get h).symm
  · simp

theorem stripRefOpen_nil : stripRefOpen [] = [] := by rw [stripRefOpen]

theorem stripRefOpen_cons_some {c : Char} {rest r : List Char}
    (hm : refOpenMatch (c :: rest) = some r) :
    stripRefOpen (c :: rest) = stripRefOpen r := by
  have hs : (refOpenMatch (c :: rest)).isSome := by rw [hm]; rfl
  rw [stripRefOpen, dif_pos hs]
  congr 1
  have hthis := Option.some_get hs
  exact Option.some.inj (hthis.trans hm)

theorem stripRefOpen_cons_none {c : Char} {rest : List Char}
    (hm : refOpenMatch (c :: rest) = none) :
    stripRefOpen (c :: rest) = c :: stripRefOpen rest := by
  have hs : ¬ (refOpenMatch (c :: rest)).isSome := by rw [hm]; simp
  rw [stripRefOpen, dif_neg hs]

/-- The characters of `"</reference>"`. -/
def refClosePat : List Char :=
  ['<', '/', 'r', 'e', 'f', 'e', 'r', 'e', 'n', 'c', 'e', '>']

/-- One attempt of the literal `</reference>` anchored at the head. -/
def refCloseMatch (l : List Char) : Option (List Char) :=
  if litPre (fun a b => a == b) refClosePat l then some (l.drop refClosePat.length)
  else none

theorem refCloseMatch_length {l r : List Char} (h : refCloseMatch l = some r)
    (hne : l ≠ []) : r.length < l.length := by
  unfold refCloseMatch at h
  by_cases hp : litPre (fun a b => a == b) refClosePat l
  · rw [if_pos hp] at h
    have hr := Option.some.inj h
    have hl : 0 < l.length := List.length_pos.mpr hne
    rw [← hr, List.length_drop]
    simp only [refClosePat, List.length_cons, List.length_nil]
    omega
  · rw [if_neg hp] at h; exact absurd h (by simp)

/-- Global replace of the literal `/<\/reference>/g` by the empty string. -/
def stripRefClose : List Char → List Char
  | [] => []
  | c :: rest =>
    if h : (refCloseMatch (c :: rest)).isSome then
      stripRefClose ((refCloseMatch (c :: rest)).get h)
    else c :: stripRefClose rest
termination_by l => l.length
decreasing_by
  · exact refCloseMatch_length (Option.some_get h).symm (by simp)
  · simp

theorem stripRefClose_nil : stripRefClose [] = [] := by rw [stripRefClose]

theorem stripRefClose_cons_some {c : Char} {rest r : List Char}
    (hm : refCloseMatch (c :: rest) = some r) :
    stripRefClose (c :: rest) = stripRefClose r := by
  have hs : (refCloseMatch (c :: rest)).isSome := by rw [hm]; rfl
  rw [stripRefClose, dif_pos hs]
  congr 1
  have hthis := Option.some_get hs
  exact Option.some.inj (hthis.trans hm)

theorem stripRefClose_cons_none {c : Char} {rest : List Char}
    (hm : refCloseMatch (c :: rest) = none) :
    stripRefClose (c :: rest) = c :: stripRefClose rest := by
  have hs : ¬ (refCloseMatch (c :: rest)).isSome := by rw [hm]; simp
  rw [stripRefClose, dif_neg hs]

/-- The part of the token regex after `@!?`: greedy `[^:]+` (which, being
unable to cross a `:`, must end exactly at the first `:`), the literal
`://`, then greedy `[^\s\>\<\n]+`.  Returns the remainder after the
resource part. -/
def afterProto (l : List Char) : Option (List Char) :=
  if (l.takeWhile (fun c => c ≠ ':')).isEmpty then none
  else
    match l.drop (l.takeWhile (fun c => c ≠ ':')).length with
    | ':' :: '/' :: '/' :: r =>
      if (r.takeWhile resChar).isEmpty then none
      else some (r.drop (r.takeWhile resChar).length)
    | _ => none

theorem takeWhile_len_le (p : Char → Bool) (l : List Char) :
    (l.takeWhile p).length ≤ l.length := by
  induction l with
  | nil => simp
  | cons c rest ih =>
    by_cases hc : p c
    · simpa [List.takeWhile, hc] using ih
    · simp [List.takeWhile, hc]

theorem afterProto_length {l r : List Char} (h : afterProto l = some r) :
    r.length + 5 ≤ l.length := by
  unfold afterProto at h
  by_cases hpe : (l.takeWhile (fun c => c ≠ ':')).isEmpty
  · rw [if_pos hpe] at h; exact absurd h (by simp)
  · rw [if_neg hpe] at h
    have hplen : 0 < (l.takeWhile (fun c => c ≠ ':')).length := by
      rcases he : l.takeWhile (fun c => c ≠ ':') with _ | ⟨x, xs⟩
      · rw [he] at hpe; exact absurd rfl hpe
      · simp
    have hple : (l.takeWhile (fun c => c ≠ ':')).length ≤ l.length :=
      takeWhile_len_le _ l
    split at h
    next r1 heq =>
      by_cases hre : (r1.takeWhile resChar).isEmpty
      · rw [if_pos hre] at h; exact absurd h (by simp)
      · rw [if_neg hre] at h
        have hrlen : 0 < (r1.takeWhile resChar).length := by
          rcases he : r1.takeWhile resChar with _ | ⟨x, xs⟩
          · rw [he] at hre; exact absurd rfl hre
          · simp
        have hrle : (r1.takeWhile resChar).length ≤ r1.length :=
          takeWhile_len_le _ r1
        have hdl : (l.drop (l.takeWhile (fun c => c ≠ ':')).length).length =
            r1.length + 3 := by rw [heq]; simp
        rw [List.length_drop] at hdl
        have hr := Option.some.inj h
        have hrd : r.length = r1.length - (r1.takeWhile resChar).length := by
          rw [← hr]; simp
        omega
    next heq => exact absurd h (by simp)

/-- The part after `@`: greedy `!?` first tries to consume a `'!'` and, on
failure of the remainder, retries without it. -/
def atCore (l : List Char) : Option (List Char) :=
  match l with
  | '!' :: t =>
    match afterProto t with
    | some r => some r
    | none => afterProto l
  | _ => afterProto l

theorem atCore_length {l r : List Char} (h : atCore l = some r) :
    r.length + 5 ≤ l.length := by
  unfold atCore at h
  split at h
  next t =>
    rcases ha : afterProto t with _ | r'
    · rw [ha] at h
      have := afterProto_length h
      omega
    · rw [ha] at h
      have h5 := afterProto_length ha
      have hrr : r' = r := Option.some.inj h
      subst hrr
      simp only [List.length_cons]
      omega
  next => exact afterProto_length h

/-- One attempt of `\s*@!?[^:]+:\/\/[^\s\>\<\n]+\s*` anchored at the head:
greedy leading `\s*` (which, matching only whitespace, must end exactly at
the `@`), the core, then greedy trailing `\s*`. -/
def atMatch (l : List Char) : Option (List Char) :=
  match l.dropWhile isWs with
  | '@' :: t => (atCore t).map (fun r => r.dropWhile isWs)
  | _ => none

theorem dropWhile_len_le (p : Char → Bool) (l : List Char) :
    (l.dropWhile p).length ≤ l.length := by
  induction l with
  | nil => simp
  | cons c rest ih =>
    rw [List.dropWhile_cons]
    by_cases hc : p c = true
    · rw [if_pos hc]; have := ih; simp only [List.length_cons]; omega
    · rw [if_neg hc]

theorem atMatch_length {l r : List Char} (h : atMatch l = some r) :
    r.length < l.length := by
  unfold atMatch at h
  split at h
  next t heq =>
    rcases ha : atCore t with _ | r0
    · rw [ha] at h; exact absurd h (by simp)
    · rw [ha] at h
      have hr : r = r0.dropWhile isWs := by
        rw [Option.map_some'] at h; exact (Option.some.inj h).symm
      have h1 := atCore_length ha
      have h2 : (l.dropWhile isWs).length ≤ l.length := dropWhile_len_le _ l
      have h3 : (l.dropWhile isWs).length = t.length + 1 := by rw [heq]; simp
      have h4 : r.length ≤ r0.length := by rw [hr]; exact dropWhile_len_le _ r0
      omega
  next => exact absurd h (by simp)

/-- Global replace of `/\s*@!?[^:]+:\/\/[^\s\>\<\n]+\s*/g` by the empty
string. -/
def stripAt : List Char → List Char
  | [] => []
  | c :: rest =>
    if h : (atMatch (c :: rest)).isSome then
      stripAt ((atMatch (c :: rest)).get h)
    else c :: stripAt rest
termination_by l => l.length
decreasing_by
  · exact atMatch_length (Option.some_get h).symm
  · simp

theorem stripAt_nil : stripAt [] = [] := by rw [stripAt]

theorem stripAt_cons_some {c : Char} {rest r : List Char}
    (hm : atMatch (c :: rest) = some r) : stripAt (c :: rest) = stripAt r := by
  have hs : (atMatch (c :: rest)).isSome := by rw [hm]; rfl
  rw [stripAt, dif_pos hs]
  congr 1
  have hthis := Option.some_get hs
  exact Option.some.inj (hthis.trans hm)

theorem stripAt_cons_none {c : Char} {rest : List Char}
    (hm : atMatch (c :: rest) = none) : stripAt (c :: rest) = c :: stripAt rest := by
  have hs : ¬ (atMatch (c :: rest)).isSome := by rw [hm]; simp
  rw [stripAt, dif_neg hs]

theorem takeWhile_len_lt_of_mem {p : Char → Bool} {a : Char} {l : List Char}
    (hmem : a ∈ l) (hpa : p a = false) :
    (l.takeWhile p).length < l.length := by
  induction l with
  | nil => simp at hmem
  | cons c rest ih =>
    by_cases hc : p c
    · have hcr : a ∈ rest := by
        rcases List.mem_cons.mp hmem with h1 | h1
        · subst h1; rw [hpa] at hc; simp at hc
        · exact h1
      have := ih hcr
      simp only [List.takeWhile, hc, List.length_cons]
      omega
    · simp only [List.takeWhile, Bool.not_eq_true] at hc ⊢
      rw [hc]
      simp

/-- The maximal whitespace run starting at the head of `l`. -/
def wsRun (l : List Char) : List Char := l.takeWhile isWs

/-- Length of the prefix of `l` that a match of `\n\s*\n\s*\n` starting at
the head consumes: up to, and including, the last newline of the whitespace
run at the head. -/
def runConsume (l : List Char) : Nat :=
  (wsRun l).length - ((wsRun l).reverse.takeWhile (fun x => x ≠ '\n')).length

theorem runConsume_pos {l : List Char} (h : 0 < (wsRun l).count '\n') :
    0 < runConsume l := by
  have hmem : '\n' ∈ (wsRun l).reverse := by
    rw [List.mem_reverse]
    exact List.count_pos_iff.mp h
  have hlt := takeWhile_len_lt_of_mem (p := fun x => x ≠ '\n') hmem (by simp)
  rw [List.length_reverse] at hlt
  unfold runConsume
  omega

theorem runConsume_le (l : List Char) : runConsume l ≤ l.length := by
  have h1 : (wsRun l).length ≤ l.length := takeWhile_len_le _ _
  unfold runConsume
  omega

/-- One attempt of `\n\s*\n\s*\n` anchored at the head: the greedy pattern
matches exactly when the head is `'\n'` and the maximal whitespace run
starting there contains at least three newlines; the match then extends to
the last newline of that run (the first greedy `\s*` stretches to the
second-to-last newline, the second to the last).  Returns the remainder
after the match. -/
def nlMatch (l : List Char) : Option (List Char) :=
  if l.head? = some '\n' ∧ 3 ≤ (wsRun l).count '\n' then
    some (l.drop (runConsume l))
  else none

theorem nlMatch_elim {l r : List Char} (h : nlMatch l = some r) :
    l.head? = some '\n' ∧ 3 ≤ (wsRun l).count '\n' ∧
      r = l.drop (runConsume l) := by
  unfold nlMatch at h
  by_cases hc : l.head? = some '\n' ∧ 3 ≤ (wsRun l).count '\n'
  · rw [if_pos hc] at h
    exact ⟨hc.1, hc.2, (Option.some.inj h).symm⟩
  · rw [if_neg hc] at h; exact absurd h (by simp)

theorem nlMatch_none_elim {l : List Char} (h : nlMatch l = none) :
    ¬ (l.head? = some '\n' ∧ 3 ≤ (wsRun l).count '\n') := by
  intro hc
  unfold nlMatch at h
  rw [if_pos hc] at h
  exact absurd h (by simp)

theorem nlMatch_length {l r : List Char} (h : nlMatch l = some r) :
    r.length < l.length := by
  obtain ⟨hh, hc, hr⟩ := nlMatch_elim h
  have h1 : 0 < runConsume l := runConsume_pos (by omega)
  have h2 : runConsume l ≤ l.length := runConsume_le l
  have h3 : 0 < l.length := by
    cases l with
    | nil => exact absurd hh (by simp)
    | cons x xs => simp
  rw [hr, List.length_drop]
  omega

/-- Global replace of `/\n\s*\n\s*\n/g` by `"\n\n"`: the replacement emits
two newlines and the scan resumes after the match; at a non-matching
position the character is kept and the scan moves one right. -/
def collapseNl : List Char → List Char
  | [] => []
  | c :: rest =>
    if h : (nlMatch (c :: rest)).isSome then
      '\n' :: '\n' :: collapseNl ((nlMatch (c :: rest)).get h)
    else c :: collapseNl rest
termination_by l => l.length
decreasing_by
  · exact nlMatch_length (Option.some_get h).symm
  · simp

theorem collapseNl_nil : collapseNl [] = [] := by rw [collapseNl]

theorem collapseNl_cons_some {c : Char} {rest r : List Char}
    (hm : nlMatch (c :: rest) = some r) :
    collapseNl (c :: rest) = '\n' :: '\n' :: collapseNl r := by
  have hs : (nlMatch (c :: rest)).isSome := by rw [hm]; rfl
  rw [collapseNl, dif_pos hs]
  have hthis := Option.some_get hs
  rw [Option.some.inj (hthis.trans hm)]

theorem collapseNl_cons_none {c : Char} {rest : List Char}
    (hm : nlMatch (c :: rest) = none) :
    collapseNl (c :: rest) = c :: collapseNl rest := by
  have hs : ¬ (nlMatch (c :: rest)).isSome := by rw [hm]; simp
  rw [collapseNl, dif_neg hs]

theorem nlMatch_cons_ne {c : Char} (rest : List Char) (hc : ¬ c = '\n') :
    nlMatch (c :: rest) = none := by
  unfold nlMatch
  rw [if_neg]
  rintro ⟨h1, -⟩
  exact hc (Option.some.inj (by simpa using h1))

theorem collapseNl_cons_ne {c : Char} {rest : List Char} (hc : ¬ c = '\n') :
    collapseNl (c :: rest) = c :: collapseNl rest :=
  collapseNl_cons_none (nlMatch_cons_ne rest hc)

/-- `String.prototype.trim`: drop leading and trailing `\s` characters. -/
def jsTrim (l : List Char) : List Char :=
  ((l.dropWhile isWs).reverse.dropWhile isWs).reverse

/-- `LayerAssembler.cleanContent` (lines 373–386).  The JavaScript guard
`if (!content) return ''` maps the empty string (and `null`, which we do not
model) to the empty string. -/
def cleanContentL (l : List Char) : List Char :=
  if l.isEmpty then []
  else jsTrim (collapseNl (stripAt (stripRefClose (stripRefOpen l))))

/-- `cleanContent` on `String`. -/
def cleanContent (s : String) : String :=
  ⟨cleanContentL s.data⟩

/-! ### Generic list helpers -/

theorem takeWhile_append_all {q : Char → Bool} {a : List Char} (b : List Char)
    (h : ∀ x ∈ a, q x = true) : (a ++ b).takeWhile q = a ++ b.takeWhile q := by
  induction a with
  | nil => simp
  | cons x xs ih =>
    have hx : q x = true := h x (by simp)
    have ih' := ih (fun y hy => h y (by simp [hy]))
    simp [List.takeWhile_cons, hx, ih']

theorem takeWhile_append_exact {q : Char → Bool} {p : List Char} {y : Char}
    (t : List Char) (hp : ∀ x ∈ p, q x = true) (hy : q y = false) :
    (p ++ y :: t).takeWhile q = p := by
  rw [takeWhile_append_all _ hp, List.takeWhile_cons, hy]
  simp

theorem takeWhile_dropWhile_nil (q : Char → Bool) (l : List Char) :
    (l.dropWhile q).takeWhile q = [] := by
  induction l with
  | nil => simp
  | cons c rest ih =>
    rw [List.dropWhile_cons]
    by_cases hc : q c = true
    · rw [if_pos hc]; exact ih
    · rw [if_neg hc, List.takeWhile_cons, eq_false_of_ne_true hc]
      simp

theorem dropWhile_suffix' (q : Char → Bool) (l : List Char) :
    l.dropWhile q <:+ l := by
  conv_rhs => rw [← List.takeWhile_append_dropWhile q l]
  exact List.suffix_append _ _

theorem drop_suffix' (n : Nat) (l : List Char) : l.drop n <:+ l := by
  conv_rhs => rw [← List.take_append_drop n l]
  exact List.suffix_append _ _

theorem dropWhile_eq_self_of_head {q : Char → Bool} {l : List Char}
    (h : ∀ c t, l = c :: t → q c = false) : l.dropWhile q = l := by
  cases l with
  | nil => simp
  | cons c t => rw [List.dropWhile_cons, h c t rfl]; simp

/-! ### Reference-token occurrences

`TokIn l` states that `l` contains an occurrence of the token pattern
`@[^:]+:\/\/[^\s\>\<\n]+`.  The optional `!` of `@!?`: an occurrence of
`@![^:]+://…` is in particular an occurrence with `![^:]*` as the protocol
part, so one pattern describes both forms. -/
def TokIn (l : List Char) : Prop :=
  ∃ a p c b, l = a ++ '@' :: (p ++ ':' :: '/' :: '/' :: c :: b) ∧
    p ≠ [] ∧ (∀ x ∈ p, x ≠ ':') ∧ resChar c = true

theorem TokIn.cons {l : List Char} (x : Char) (h : TokIn l) : TokIn (x :: l) := by
  obtain ⟨a, p, c, b, hl, hp, hpc, hc⟩ := h
  exact ⟨x :: a, p, c, b, by rw [hl]; rfl, hp, hpc, hc⟩

theorem TokIn.mem_at {l : List Char} (h : TokIn l) : '@' ∈ l := by
  obtain ⟨a, p, c, b, hl, _, _, _⟩ := h
  rw [hl]
  exact List.mem_append_right _ (by simp)

theorem not_tokIn_nil : ¬ TokIn [] := by
  rintro ⟨a, p, c, b, hl, -, -, -⟩
  exact absurd hl.symm (by simp)

/-- Backward direction: a decomposition witnesses success of `afterProto`. -/
theorem afterProto_isSome_of_decomp {p : List Char} {c : Char} (b : List Char)
    (hp : p ≠ []) (hpc : ∀ x ∈ p, x ≠ ':') (hc : resChar c = true) :
    ∃ r, afterProto (p ++ ':' :: '/' :: '/' :: c :: b) = some r := by
  have htw : ((p ++ ':' :: '/' :: '/' :: c :: b).takeWhile
      (fun x => x ≠ ':')) = p := by
    apply takeWhile_append_exact
    · intro x hx
      simpa using hpc x hx
    · simp
  have hdrop : (p ++ ':' :: '/' :: '/' :: c :: b).drop p.length =
      ':' :: '/' :: '/' :: c :: b := List.drop_left _ _
  unfold afterProto
  rw [htw, hdrop]
  have hpe : p.isEmpty = false := by
    cases p with
    | nil => exact absurd rfl hp
    | cons x xs => simp
  rw [hpe]
  simp only [Bool.false_eq_true, if_false]
  have hres : ((c :: b).takeWhile resChar).isEmpty = false := by
    rw [List.takeWhile_cons, hc]
    simp
  rw [hres]
  simp

/-- Forward direction: success of `afterProto` yields a decomposition. -/
theorem afterProto_decomp {l r : List Char} (h : afterProto l = some r) :
    ∃ p c b, l = p ++ ':' :: '/' :: '/' :: c :: b ∧ p ≠ [] ∧
      (∀ x ∈ p, x ≠ ':') ∧ resChar c = true := by
  unfold afterProto at h
  by_cases hpe : (l.takeWhile (fun c => c ≠ ':')).isEmpty
  · rw [if_pos hpe] at h; exact absurd h (by simp)
  · rw [if_neg hpe] at h
    have hl : l = l.takeWhile (fun c => c ≠ ':') ++ l.dropWhile (fun c => c ≠ ':') :=
      (List.takeWhile_append_dropWhile _ _).symm
    have hdrop : l.drop (l.takeWhile (fun c => c ≠ ':')).length =
        l.dropWhile (fun c => c ≠ ':') := by
      nth_rewrite 2 [hl]
      exact List.drop_left _ _
    rw [hdrop] at h
    split at h
    next heq =>
      rename_i r1
      by_cases hre : (r1.takeWhile resChar).isEmpty
      · rw [if_pos hre] at h; exact absurd h (by simp)
      · cases r1 with
        | nil => simp at hre
        | cons c1 b1 =>
          have hc1 : resChar c1 = true := by
            by_contra hcc
            rw [List.takeWhile_cons, eq_false_of_ne_true hcc] at hre
            simp at hre
          refine ⟨l.takeWhile (fun c => c ≠ ':'), c1, b1, ?_, ?_, ?_, hc1⟩
          · conv_lhs => rw [hl]
            rw [heq]
          · intro hnil
            rw [hnil] at hpe
            simp at hpe
          · intro x hx
            simpa using List.mem_takeWhile_imp hx
    next => exact absurd h (by simp)

theorem afterProto_suffix {l r : List Char} (h : afterProto l = some r) :
    r <:+ l := by
  unfold afterProto at h
  by_cases hpe : (l.takeWhile (fun c => c ≠ ':')).isEmpty
  · rw [if_pos hpe] at h; exact absurd h (by simp)
  · rw [if_neg hpe] at h
    split at h
    next r1 heq =>
      by_cases hre : (r1.takeWhile resChar).isEmpty
      · rw [if_pos hre] at h; exact absurd h (by simp)
      · rw [if_neg hre] at h
        have hr : r1.drop (r1.takeWhile resChar).length = r := Option.some.inj h
        have h1 : r <:+ r1 := hr ▸ drop_suffix' _ _
        have h2 : r1 <:+ ':' :: '/' :: '/' :: r1 :=
          (List.suffix_cons '/' r1).trans
            ((List.suffix_cons '/' ('/' :: r1)).trans
              (List.suffix_cons ':' ('/' :: '/' :: r1)))
        have h3 : (':' :: '/' :: '/' :: r1) <:+ l := heq ▸ drop_suffix' _ l
        exact h1.trans (h2.trans h3)
    next => exact absurd h (by simp)

/-- The greedy `!?` never turns a failing core into a success: if `atCore`
succeeds then so does `afterProto` at the same position (for `@!p://r` the
string `!p` is itself a colon-free protocol). -/
theorem afterProto_isSome_of_atCore {l r : List Char} (h : atCore l = some r) :
    ∃ r', afterProto l = some r' := by
  unfold atCore at h
  split at h
  next t =>
    rcases ha : afterProto t with _ | u
    · rw [ha] at h; exact ⟨r, h⟩
    · rw [ha] at h
      obtain ⟨p, c, b, ht, hp, hpc, hc⟩ := afterProto_decomp ha
      have : ('!' :: t) = ('!' :: p) ++ ':' :: '/' :: '/' :: c :: b := by
        rw [ht]; rfl
      rw [this]
      refine afterProto_isSome_of_decomp b (by simp) ?_ hc
      intro x hx
      rcases List.mem_cons.mp hx with h1 | h1
      · subst h1; decide
      · exact hpc x h1
  next => exact ⟨r, h⟩

theorem atCore_isSome_of_afterProto {l r : List Char} (h : afterProto l = some r) :
    ∃ r', atCore l = some r' := by
  unfold atCore
  split
  next t =>
    rcases ha : afterProto t with _ | u
    · exact ⟨r, h⟩
    · exact ⟨u, rfl⟩
  next => exact ⟨r, h⟩

theorem atCore_suffix {l r : List Char} (h : atCore l = some r) : r <:+ l := by
  unfold atCore at h
  split at h
  next t =>
    rcases ha : afterProto t with _ | u
    · rw [ha] at h; exact afterProto_suffix h
    · rw [ha] at h
      have hu : u = r := Option.some.inj h
      exact hu ▸ (afterProto_suffix ha).trans (List.suffix_cons '!' t)
  next => exact afterProto_suffix h

theorem tokIn_of_atMatch {l r : List Char} (h : atMatch l = some r) : TokIn l := by
  unfold atMatch at h
  split at h
  next t heq =>
    rcases ha : atCore t with _ | r0
    · rw [ha] at h; exact absurd h (by simp)
    · obtain ⟨r', ha'⟩ := afterProto_isSome_of_atCore ha
      obtain ⟨p, c, b, ht, hp, hpc, hc⟩ := afterProto_decomp ha'
      refine ⟨l.takeWhile isWs, p, c, b, ?_, hp, hpc, hc⟩
      conv_lhs => rw [← List.takeWhile_append_dropWhile isWs l]
      rw [heq, ht]
  next => exact absurd h (by simp)

theorem atMatch_suffix {l r : List Char} (h : atMatch l = some r) : r <:+ l := by
  unfold atMatch at h
  split at h
  next t heq =>
    rcases ha : atCore t with _ | r0
    · rw [ha] at h; exact absurd h (by simp)
    · rw [ha, Option.map_some'] at h
      have hr : r0.dropWhile isWs = r := Option.some.inj h
      have h1 : r <:+ r0 := hr ▸ dropWhile_suffix' _ _
      have h2 : r0 <:+ t := atCore_suffix ha
      have h3 : t <:+ l :=
        (List.suffix_cons '@' t).trans (heq ▸ dropWhile_suffix' isWs l)
      exact h1.trans (h2.trans h3)
  next => exact absurd h (by simp)

theorem atMatch_count_at {l r : List Char} (h : atMatch l = some r) :
    r.count '@' + 1 ≤ l.count '@' := by
  have hsplit : l = l.takeWhile isWs ++ l.dropWhile isWs :=
    (List.takeWhile_append_dropWhile isWs l).symm
  unfold atMatch at h
  split at h
  next t heq =>
    rcases ha : atCore t with _ | r0
    · rw [ha] at h; exact absurd h (by simp)
    · rw [ha, Option.map_some'] at h
      have hr : r0.dropWhile isWs = r := Option.some.inj h
      have h1 : r.count '@' ≤ r0.count '@' :=
        (hr ▸ (dropWhile_suffix' isWs r0).sublist).count_le _
      have h2 : r0.count '@' ≤ t.count '@' := (atCore_suffix ha).sublist.count_le _
      have h3 : l.count '@' = (l.takeWhile isWs).count '@' + (1 + t.count '@') := by
        conv_lhs => rw [hsplit, heq]
        simp [List.count_append, List.count_cons]
        omega
      omega
  next => exact absurd h (by simp)

theorem atMatch_none_of_not_mem {l : List Char} (h : '@' ∉ l) :
    atMatch l = none := by
  rcases hm : atMatch l with _ | r
  · rfl
  · exact absurd (tokIn_of_atMatch hm).mem_at h

theorem stripAt_eq_self_of_not_mem {l : List Char} (h : '@' ∉ l) :
    stripAt l = l := by
  induction l using stripAt.induct with
  | case1 => exact stripAt_nil
  | case2 c rest hsome ih =>
    have hm : atMatch (c :: rest) = some ((atMatch (c :: rest)).get hsome) :=
      (Option.some_get hsome).symm
    exact absurd (tokIn_of_atMatch hm).mem_at h
  | case3 c rest hnone ih =>
    have hm : atMatch (c :: rest) = none := Option.not_isSome_iff_eq_none.mp hnone
    rw [stripAt_cons_none hm]
    have : '@' ∉ rest := fun hr => h (by simp [hr])
    rw [ih this]

theorem atMatch_isSome_of_head_tok {rest : List Char} {r : List Char}
    (h : afterProto rest = some r) : ∃ x, atMatch ('@' :: rest) = some x := by
  have hd : ('@' :: rest).dropWhile isWs = '@' :: rest := by
    rw [List.dropWhile_cons]
    have hws : isWs '@' = false := by decide
    rw [hws]
    simp
  obtain ⟨r', hc⟩ := atCore_isSome_of_afterProto h
  refine ⟨r'.dropWhile isWs, ?_⟩
  unfold atMatch
  rw [hd]
  simp [hc]

/-- Core absence lemma: on an input holding at most one `@`, the output of
the token-stripping pass contains no reference token.  (With two or more
`@`s this can fail: removing a token can splice its context into a new
token.) -/
theorem not_tokIn_stripAt {l : List Char} (h : l.count '@' ≤ 1) :
    ¬ TokIn (stripAt l) := by
  induction l using stripAt.induct with
  | case1 => rw [stripAt_nil]; exact not_tokIn_nil
  | case2 c rest hsome ih =>
    have hm : atMatch (c :: rest) = some ((atMatch (c :: rest)).get hsome) :=
      (Option.some_get hsome).symm
    rw [stripAt_cons_some hm]
    have hcount := atMatch_count_at hm
    have hnm : '@' ∉ (atMatch (c :: rest)).get hsome := by
      intro hmem
      have := List.count_pos_iff.mpr hmem
      omega
    rw [stripAt_eq_self_of_not_mem hnm]
    intro htok
    exact absurd (List.count_pos_iff.mpr htok.mem_at)
      (by have := hcount; omega)
  | case3 c rest hnone ih =>
    have hm : atMatch (c :: rest) = none := Option.not_isSome_iff_eq_none.mp hnone
    rw [stripAt_cons_none hm]
    have hle : rest.count '@' ≤ 1 := by
      have hcc : (c :: rest).count '@' = rest.count '@' + if c = '@' then 1 else 0 := by
        simp [List.count_cons]
      omega
    rintro ⟨a, p, ch, b, hl, hp, hpc, hc⟩
    cases a with
    | nil =>
      simp only [List.nil_append] at hl
      obtain ⟨hca, hout⟩ := List.cons_eq_cons.mp hl
      subst hca
      have hr0 : rest.count '@' = 0 := by
        have hcc : ('@' :: rest).count '@' = rest.count '@' + 1 := by
          simp [List.count_cons]
        omega
      have hnm : '@' ∉ rest := by
        intro hmem
        have := List.count_pos_iff.mpr hmem
        omega
      rw [stripAt_eq_self_of_not_mem hnm] at hout
      obtain ⟨r', hap⟩ : ∃ r', afterProto rest = some r' := by
        rw [hout]
        exact afterProto_isSome_of_decomp b hp (fun x hx => hpc x hx) hc
      obtain ⟨x, hx⟩ := atMatch_isSome_of_head_tok hap
      rw [hm] at hx
      exact absurd hx (by simp)
    | cons a0 a' =>
      obtain ⟨hca, hout⟩ := List.cons_eq_cons.mp (by simpa using hl)
      exact ih hle ⟨a', p, ch, b, hout, hp, hpc, hc⟩

theorem stripAt_sublist (l : List Char) : (stripAt l).Sublist l := by
  induction l using stripAt.induct with
  | case1 => rw [stripAt_nil]
  | case2 c rest hsome ih =>
    have hm : atMatch (c :: rest) = some ((atMatch (c :: rest)).get hsome) :=
      (Option.some_get hsome).symm
    rw [stripAt_cons_some hm]
    exact ih.trans (atMatch_suffix hm).sublist
  | case3 c rest hnone ih =>
    have hm : atMatch (c :: rest) = none := Option.not_isSome_iff_eq_none.mp hnone
    rw [stripAt_cons_none hm]
    exact ih.cons₂ c

theorem stripAt_eq_self_of_not_tokIn {l : List Char} (h : ¬ TokIn l) :
    stripAt l = l := by
  induction l using stripAt.induct with
  | case1 => exact stripAt_nil
  | case2 c rest hsome ih =>
    have hm : atMatch (c :: rest) = some ((atMatch (c :: rest)).get hsome) :=
      (Option.some_get hsome).symm
    exact absurd (tokIn_of_atMatch hm) h
  | case3 c rest hnone ih =>
    have hm : atMatch (c :: rest) = none := Option.not_isSome_iff_eq_none.mp hnone
    rw [stripAt_cons_none hm]
    have : ¬ TokIn rest := fun ht => h (ht.cons c)
    rw [ih this]

/-! ### Structure of the newline-collapsing pass -/

theorem mem_wsRun_ws {x : Char} {l : List Char} (h : x ∈ wsRun l) :
    isWs x = true := List.mem_takeWhile_imp h

/-- The whitespace run of `l` splits as the reversed newline-free tail `s`
after the consumed part: `wsRun l = (l.take (runConsume l)`-part`) ++
s.reverse` where `s` is newline-free. -/
theorem wsRun_take_drop (l : List Char) :
    (wsRun l).take (runConsume l) =
      ((wsRun l).reverse.dropWhile (fun x => x ≠ '\n')).reverse ∧
    (wsRun l).drop (runConsume l) =
      ((wsRun l).reverse.takeWhile (fun x => x ≠ '\n')).reverse := by
  have hsplit : (wsRun l).reverse =
      (wsRun l).reverse.takeWhile (fun x => x ≠ '\n') ++
      (wsRun l).reverse.dropWhile (fun x => x ≠ '\n') :=
    (List.takeWhile_append_dropWhile _ _).symm
  have hw : wsRun l =
      ((wsRun l).reverse.dropWhile (fun x => x ≠ '\n')).reverse ++
      ((wsRun l).reverse.takeWhile (fun x => x ≠ '\n')).reverse := by
    conv_lhs => rw [← List.reverse_reverse (wsRun l), hsplit]
    rw [List.reverse_append]
  have hlen : runConsume l =
      ((wsRun l).reverse.dropWhile (fun x => x ≠ '\n')).reverse.length := by
    unfold runConsume
    have h1 := congrArg List.length hsplit
    rw [List.length_append, List.length_reverse] at h1
    simp only [List.length_reverse]
    omega
  constructor
  · conv_lhs => rw [hw, hlen]
    exact List.take_left _ _
  · conv_lhs => rw [hw, hlen]
    exact List.drop_left _ _

theorem count_nl_revTakeWhile (l : List Char) :
    (((wsRun l).reverse.takeWhile (fun x => x ≠ '\n')).reverse).count '\n' = 0 := by
  rw [List.count_eq_zero]
  intro hmem
  rw [List.mem_reverse] at hmem
  have := List.mem_takeWhile_imp hmem
  simp at this

/-- The consumed prefix of a collapse match carries all the newlines of the
whitespace run. -/
theorem count_nl_take_runConsume (l : List Char) :
    ((wsRun l).take (runConsume l)).count '\n' = (wsRun l).count '\n' := by
  obtain ⟨ht, hd⟩ := wsRun_take_drop l
  have hsum : ((wsRun l).take (runConsume l)).count '\n' +
      ((wsRun l).drop (runConsume l)).count '\n' = (wsRun l).count '\n' := by
    conv_rhs => rw [← List.take_append_drop (runConsume l) (wsRun l)]
    rw [List.count_append]
  rw [hd, count_nl_revTakeWhile] at hsum
  omega

theorem runConsume_le_wsRun (l : List Char) :
    runConsume l ≤ (wsRun l).length := by
  unfold runConsume; omega

/-- `l.take n` only sees the whitespace run when `n` fits inside it. -/
theorem take_pre_ws (l : List Char) (n : Nat) (hn : n ≤ (wsRun l).length) :
    l.take n = (wsRun l).take n := by
  have hl : l = wsRun l ++ l.dropWhile isWs := by
    rw [wsRun]; exact (List.takeWhile_append_dropWhile isWs l).symm
  calc l.take n = (wsRun l ++ l.dropWhile isWs).take n := by conv_lhs => rw [hl]
    _ = (wsRun l).take n := List.take_append_of_le_length hn

theorem drop_pre_ws (l : List Char) (n : Nat) (hn : n ≤ (wsRun l).length) :
    l.drop n = (wsRun l).drop n ++ l.dropWhile isWs := by
  have hl : l = wsRun l ++ l.dropWhile isWs := by
    rw [wsRun]; exact (List.takeWhile_append_dropWhile isWs l).symm
  calc l.drop n = (wsRun l ++ l.dropWhile isWs).drop n := by conv_lhs => rw [hl]
    _ = (wsRun l).drop n ++ l.dropWhile isWs := List.drop_append_of_le_length hn

/-- After a collapse match, the remaining whitespace run is newline-free. -/
theorem wsRun_drop_runConsume_count (l : List Char) :
    (wsRun (l.drop (runConsume l))).count '\n' = 0 := by
  obtain ⟨-, hd⟩ := wsRun_take_drop l
  have hall : ∀ x ∈ ((wsRun l).reverse.takeWhile (fun x => x ≠ '\n')).reverse,
      isWs x = true := by
    intro x hx
    rw [List.mem_reverse] at hx
    have hx2 : x ∈ (wsRun l).reverse := ((List.takeWhile_prefix _).sublist.subset) hx
    exact mem_wsRun_ws (List.mem_reverse.mp hx2)
  rw [wsRun, drop_pre_ws l _ (runConsume_le_wsRun l), hd,
    takeWhile_append_all _ hall, takeWhile_dropWhile_nil, List.append_nil,
    count_nl_revTakeWhile]

theorem wsRun_cons_ws {c : Char} {rest : List Char} (hc : isWs c = true) :
    wsRun (c :: rest) = c :: wsRun rest := by
  rw [wsRun, wsRun, List.takeWhile_cons, hc]
  simp

theorem wsRun_cons_not {c : Char} {rest : List Char} (hc : isWs c = false) :
    wsRun (c :: rest) = [] := by
  rw [wsRun, List.takeWhile_cons, hc]
  simp

theorem takeWhile_ws_cons {c : Char} (x : List Char) (hc : isWs c = true) :
    (c :: x).takeWhile isWs = c :: x.takeWhile isWs := by
  rw [List.takeWhile_cons, hc]
  simp

theorem count_nl_cons_nl (x : List Char) :
    (('\n' :: x).count '\n') = x.count '\n' + 1 := by
  simp [List.count_cons]

theorem count_nl_cons_ne {c : Char} (x : List Char) (hc : ¬ c = '\n') :
    ((c :: x).count '\n') = x.count '\n' := by
  simp [List.count_cons, hc]

/-- Newline budget of the leading whitespace of a collapsed string: at most
two newlines, and no more than the original whitespace run held. -/
theorem collapse_wsPre (l : List Char) :
    ((collapseNl l).takeWhile isWs).count '\n' ≤ 2 ∧
    ((collapseNl l).takeWhile isWs).count '\n' ≤ (wsRun l).count '\n' := by
  induction l using collapseNl.induct with
  | case1 => rw [collapseNl_nil]; simp
  | case2 c rest hsome ih =>
    have hm : nlMatch (c :: rest) = some ((nlMatch (c :: rest)).get hsome) :=
      (Option.some_get hsome).symm
    obtain ⟨hh, hcount, hr⟩ := nlMatch_elim hm
    rw [collapseNl_cons_some hm,
      takeWhile_ws_cons _ isWs_nl, takeWhile_ws_cons _ isWs_nl,
      count_nl_cons_nl, count_nl_cons_nl]
    have hzero :
        ((collapseNl ((nlMatch (c :: rest)).get hsome)).takeWhile isWs).count '\n'
          = 0 := by
      have h0 : (wsRun ((nlMatch (c :: rest)).get hsome)).count '\n' = 0 := by
        rw [hr]; exact wsRun_drop_runConsume_count (c :: rest)
      have h2 := ih.2
      omega
    omega
  | case3 c rest hnone ih =>
    have hm : nlMatch (c :: rest) = none := Option.not_isSome_iff_eq_none.mp hnone
    rw [collapseNl_cons_none hm]
    by_cases hws : isWs c = true
    · rw [takeWhile_ws_cons _ hws, wsRun_cons_ws hws]
      by_cases hnl : c = '\n'
      · subst hnl
        have hcount := nlMatch_none_elim hm
        have hcount2 : ¬ 3 ≤ (wsRun ('\n' :: rest)).count '\n' := by
          intro hc3
          exact hcount ⟨by simp, hc3⟩
        rw [wsRun_cons_ws isWs_nl, count_nl_cons_nl] at hcount2
        rw [count_nl_cons_nl, count_nl_cons_nl]
        have h2 := ih.2
        have h1 := ih.1
        omega
      · rw [count_nl_cons_ne _ hnl, count_nl_cons_ne _ hnl]
        exact ⟨ih.1, ih.2⟩
    · rw [List.takeWhile_cons, eq_false_of_ne_true hws]
      simp

theorem allWs_pre_of_pre {w m : List Char} (hpre : w <+: m)
    (hw : ∀ x ∈ w, isWs x = true) : w <+: m.takeWhile isWs := by
  induction w generalizing m with
  | nil => simp
  | cons y w' ih =>
    obtain ⟨t, ht⟩ := hpre
    cases m with
    | nil => exact absurd ht (by simp)
    | cons z m' =>
      have hyz : y = z ∧ w' ++ t = m' := by simpa using ht
      obtain ⟨hy, hm'⟩ := hyz
      subst hy
      have hyw : isWs y = true := hw y (by simp)
      rw [takeWhile_ws_cons _ hyw]
      have hw' : w' <+: m' := hm' ▸ List.prefix_append w' t
      obtain ⟨t2, ht2⟩ := ih hw' (fun x hx => hw x (by simp [hx]))
      exact ⟨t2, by rw [List.cons_append, ht2]⟩

theorem allWs_pre_count {w m : List Char} (hpre : w <+: m)
    (hw : ∀ x ∈ w, isWs x = true) :
    w.count '\n' ≤ (m.takeWhile isWs).count '\n' :=
  ((allWs_pre_of_pre hpre hw).sublist).count_le _

/-- Any all-whitespace infix of a collapsed string has at most two
newlines. -/
theorem collapse_infix_ws_count (l : List Char) :
    ∀ w, w <:+: collapseNl l → (∀ x ∈ w, isWs x = true) → w.count '\n' ≤ 2 := by
  induction l using collapseNl.induct with
  | case1 =>
    intro w hinf hw
    rw [collapseNl_nil] at hinf
    rw [List.eq_nil_of_infix_nil hinf]
    simp
  | case2 c rest hsome ih =>
    intro w hinf hw
    have hm : nlMatch (c :: rest) = some ((nlMatch (c :: rest)).get hsome) :=
      (Option.some_get hsome).symm
    obtain ⟨hh, hcount, hr⟩ := nlMatch_elim hm
    rw [collapseNl_cons_some hm] at hinf
    rcases List.infix_cons_iff.mp hinf with hpre | hinf2
    · have h1 := allWs_pre_count hpre hw
      have h2 := (collapse_wsPre (c :: rest)).1
      rw [collapseNl_cons_some hm] at h2
      omega
    · rcases List.infix_cons_iff.mp hinf2 with hpre | hinf3
      · cases w with
        | nil => simp
        | cons y w' =>
          obtain ⟨t, ht⟩ := hpre
          have hyz : y = '\n' ∧
              w' ++ t = collapseNl ((nlMatch (c :: rest)).get hsome) := by
            simpa using ht
          obtain ⟨hy, hm'⟩ := hyz
          have hw' : w' <+: collapseNl ((nlMatch (c :: rest)).get hsome) :=
            hm' ▸ List.prefix_append w' t
          have h1 := allWs_pre_count hw' (fun x hx => hw x (by simp [hx]))
          have h2 := (collapse_wsPre ((nlMatch (c :: rest)).get hsome)).2
          have h0 : (wsRun ((nlMatch (c :: rest)).get hsome)).count '\n' = 0 := by
            rw [hr]; exact wsRun_drop_runConsume_count (c :: rest)
          subst hy
          rw [count_nl_cons_nl]
          omega
      · exact ih w hinf3 hw
  | case3 c rest hnone ih =>
    intro w hinf hw
    have hm : nlMatch (c :: rest) = none := Option.not_isSome_iff_eq_none.mp hnone
    rw [collapseNl_cons_none hm] at hinf
    rcases List.infix_cons_iff.mp hinf with hpre | hinf2
    · have h1 := allWs_pre_count hpre hw
      have h2 := (collapse_wsPre (c :: rest)).1
      rw [collapseNl_cons_none hm] at h2
      omega
    · exact ih w hinf2 hw

/-- A string whose all-whitespace infixes carry at most two newlines is a
fixed point of the collapsing pass. -/
theorem collapse_eq_self {l : List Char}
    (h : ∀ w, w <:+: l → (∀ x ∈ w, isWs x = true) → w.count '\n' ≤ 2) :
    collapseNl l = l := by
  induction l using collapseNl.induct with
  | case1 => exact collapseNl_nil
  | case2 c rest hsome ih =>
    have hm : nlMatch (c :: rest) = some ((nlMatch (c :: rest)).get hsome) :=
      (Option.some_get hsome).symm
    obtain ⟨hh, hcount, hr⟩ := nlMatch_elim hm
    have hinf : wsRun (c :: rest) <:+: c :: rest :=
      (List.takeWhile_prefix _).isInfix
    have := h _ hinf (fun x hx => mem_wsRun_ws hx)
    omega
  | case3 c rest hnone ih =>
    rw [collapseNl_cons_none (Option.not_isSome_iff_eq_none.mp hnone)]
    rw [ih (fun w hw hws => h w (List.infix_cons hw) hws)]

/-! ### Trim -/

theorem dropWhile_head_not {q : Char → Bool} {m : List Char} {c : Char}
    {t : List Char} (h : m.dropWhile q = c :: t) : q c = false := by
  induction m with
  | nil => simp at h
  | cons x xs ih =>
    rw [List.dropWhile_cons] at h
    by_cases hx : q x = true
    · rw [if_pos hx] at h; exact ih h
    · rw [if_neg hx] at h
      obtain ⟨h1, -⟩ : x = c ∧ xs = t := by simpa using h
      subst h1; exact eq_false_of_ne_true hx

theorem dropWhile_idem (q : Char → Bool) (m : List Char) :
    (m.dropWhile q).dropWhile q = m.dropWhile q := by
  apply dropWhile_eq_self_of_head
  intro c t h
  exact dropWhile_head_not h

theorem jsTrim_pre_dropWhile (l : List Char) :
    jsTrim l <+: l.dropWhile isWs := by
  have hu : l.dropWhile isWs =
      ((l.dropWhile isWs).reverse.dropWhile isWs).reverse ++
      ((l.dropWhile isWs).reverse.takeWhile isWs).reverse := by
    rw [← List.reverse_append, List.takeWhile_append_dropWhile, List.reverse_reverse]
  conv_rhs => rw [hu]
  exact List.prefix_append _ _

theorem jsTrim_within (l : List Char) : jsTrim l <:+: l :=
  (jsTrim_pre_dropWhile l).isInfix.trans (dropWhile_suffix' isWs l).isInfix

theorem jsTrim_head_not {l : List Char} {c : Char} {t : List Char}
    (h : jsTrim l = c :: t) : isWs c = false := by
  have hh : (jsTrim l).head? = some c := by rw [h]; rfl
  have hv : jsTrim l = ((l.dropWhile isWs).reverse.dropWhile isWs).reverse := rfl
  rw [hv, List.head?_reverse] at hh
  have hsplitu : (l.dropWhile isWs).reverse =
      (l.dropWhile isWs).reverse.takeWhile isWs ++
      (l.dropWhile isWs).reverse.dropWhile isWs :=
    (List.takeWhile_append_dropWhile _ _).symm
  have hlast : ((l.dropWhile isWs).reverse).getLast? = some c := by
    rw [hsplitu, List.getLast?_append, hh]; rfl
  rw [List.getLast?_reverse] at hlast
  cases hu : l.dropWhile isWs with
  | nil => rw [hu] at hlast; exact absurd hlast (by simp)
  | cons x xs =>
    rw [hu] at hlast
    have hx : x = c := by simpa using hlast
    subst hx
    exact dropWhile_head_not hu

theorem jsTrim_idem (l : List Char) : jsTrim (jsTrim l) = jsTrim l := by
  have hstep1 : (jsTrim l).dropWhile isWs = jsTrim l := by
    apply dropWhile_eq_self_of_head
    intro c t h
    exact jsTrim_head_not h
  have hform : jsTrim (jsTrim l) =
      (((jsTrim l).dropWhile isWs).reverse.dropWhile isWs).reverse := rfl
  rw [hform, hstep1]
  have hrev : (jsTrim l).reverse = (l.dropWhile isWs).reverse.dropWhile isWs := by
    unfold jsTrim; rw [List.reverse_reverse]
  rw [hrev, dropWhile_idem]
  rfl

/-! ### Token transfer through collapsing and trimming

Collapsing newline runs only shortens whitespace; it can neither create a
`@p://r` token occurrence nor hide the pieces of one. -/

theorem ws_ne_colon {x : Char} (h : isWs x = true) : x ≠ ':' := by
  intro hx; subst hx; simp [isWs] at h

theorem collapseNl_head? (l : List Char) : (collapseNl l).head? = l.head? := by
  cases l with
  | nil => rw [collapseNl_nil]
  | cons c rest =>
    rcases hnm : nlMatch (c :: rest) with _ | r
    · rw [collapseNl_cons_none hnm]; simp
    · obtain ⟨hh, -, -⟩ := nlMatch_elim hnm
      have hc : c = '\n' := by simpa using hh
      rw [collapseNl_cons_some hnm, hc]
      simp

theorem collapse_peel_ne {c : Char} {m X : List Char} (hc : ¬ c = '\n')
    (h : collapseNl m = c :: X) : ∃ m', m = c :: m' ∧ collapseNl m' = X := by
  cases m with
  | nil => rw [collapseNl_nil] at h; exact absurd h (by simp)
  | cons d m' =>
    have hd : d = c := by
      have hhd := collapseNl_head? (d :: m')
      rw [h] at hhd
      simpa using hhd.symm
    subst hd
    rw [collapseNl_cons_ne hc] at h
    have hX : collapseNl m' = X := by simpa using h
    exact ⟨m', rfl, hX⟩

theorem tokIn_append_left (s : List Char) {l : List Char} (h : TokIn l) :
    TokIn (s ++ l) := by
  obtain ⟨a, p, c, b, hl, hp, hpc, hc⟩ := h
  exact ⟨s ++ a, p, c, b, by rw [hl, List.append_assoc], hp, hpc, hc⟩

theorem tokIn_of_within {w l : List Char} (hw : TokIn w) (hinf : w <:+: l) :
    TokIn l := by
  obtain ⟨s, t, hst⟩ := hinf
  obtain ⟨a, p, c, b, hl, hp, hpc, hc⟩ := hw
  refine ⟨s ++ a, p, c, b ++ t, ?_, hp, hpc, hc⟩
  rw [← hst, hl]
  simp

/-- Peeling the literal part `://` + resource head through the collapse.  If
the collapsed string continues with `p ++ "://" ++ c ++ …` for a colon-free
`p`, then the original string already continued with some colon-free `q`
followed by the same `"://" ++ c`. -/
theorem collapse_tok_aux :
    ∀ (n : Nat) (m : List Char), m.length ≤ n →
    ∀ (p : List Char) (c : Char) (b : List Char),
      (∀ x ∈ p, x ≠ ':') → resChar c = true →
      collapseNl m = p ++ ':' :: '/' :: '/' :: c :: b →
      ∃ q b', m = q ++ ':' :: '/' :: '/' :: c :: b' ∧
        (∀ x ∈ q, x ≠ ':') ∧ (p ≠ [] → q ≠ []) := by
  intro n
  induction n with
  | zero =>
    intro m hm p c b hpc hc heq
    have hm0 : m = [] := by
      cases m with
      | nil => rfl
      | cons d r => simp at hm
    rw [hm0, collapseNl_nil] at heq
    exact absurd heq.symm (by simp)
  | succ n ihn =>
    intro m hm p c b hpc hc heq
    cases p with
    | nil =>
      simp only [List.nil_append] at heq
      obtain ⟨m1, hm1, h1⟩ := collapse_peel_ne (by decide) heq
      obtain ⟨m2, hm2, h2⟩ := collapse_peel_ne (by decide) h1
      obtain ⟨m3, hm3, h3⟩ := collapse_peel_ne (by decide) h2
      obtain ⟨m4, hm4, h4⟩ := collapse_peel_ne (resChar_ne_nl hc) h3
      refine ⟨[], m4, ?_, by simp, by simp⟩
      rw [hm1, hm2, hm3, hm4]
      rfl
    | cons x p' =>
      cases m with
      | nil =>
        rw [collapseNl_nil] at heq
        exact absurd heq.symm (by simp)
      | cons d rest =>
        rcases hnm : nlMatch (d :: rest) with _ | r
        · rw [collapseNl_cons_none hnm] at heq
          have hsplit : d = x ∧
              collapseNl rest = p' ++ ':' :: '/' :: '/' :: c :: b := by
            simpa using heq
          obtain ⟨q', b', hq', hqc', -⟩ :=
            ihn rest (by simp only [List.length_cons] at hm; omega) p' c b
              (fun z hz => hpc z (by simp [hz])) hc hsplit.2
          refine ⟨d :: q', b', ?_, ?_, by simp⟩
          · rw [hq']; rfl
          · intro z hz
            rcases List.mem_cons.mp hz with h1 | h1
            · subst h1
              rw [hsplit.1]
              exact hpc x (by simp)
            · exact hqc' z h1
        · obtain ⟨hh, hcount, hr⟩ := nlMatch_elim hnm
          rw [collapseNl_cons_some hnm] at heq
          obtain ⟨hx, hrest1⟩ : '\n' = x ∧
              '\n' :: collapseNl r = p' ++ ':' :: '/' :: '/' :: c :: b := by
            simpa using heq
          cases p' with
          | nil => simp at hrest1
          | cons y p'' =>
            obtain ⟨hy, hrest2⟩ : '\n' = y ∧
                collapseNl r = p'' ++ ':' :: '/' :: '/' :: c :: b := by
              simpa using hrest1
            have hrlen : r.length ≤ n := by
              have h5 := nlMatch_length hnm
              simp only [List.length_cons] at h5 hm
              omega
            obtain ⟨q'', b', hq'', hqc'', -⟩ :=
              ihn r hrlen p'' c b (fun z hz => hpc z (by simp [hz])) hc hrest2
            refine ⟨(d :: rest).take (runConsume (d :: rest)) ++ q'', b', ?_, ?_, ?_⟩
            · conv_lhs => rw [← List.take_append_drop (runConsume (d :: rest)) (d :: rest)]
              rw [← hr, hq'', List.append_assoc]
            · intro z hz
              rcases List.mem_append.mp hz with h1 | h1
              · have hz2 : z ∈ (wsRun (d :: rest)).take (runConsume (d :: rest)) := by
                  rw [← take_pre_ws _ _ (runConsume_le_wsRun _)]
                  exact h1
                have hz3 : z ∈ wsRun (d :: rest) :=
                  ((List.take_prefix _ _).sublist).subset hz2
                exact ws_ne_colon (mem_wsRun_ws hz3)
              · exact hqc'' z h1
            · intro hne hq0
              have hlen0 := congrArg List.length hq0
              rw [List.length_append, List.length_take] at hlen0
              simp only [List.length_nil, List.length_cons] at hlen0
              have hpos : 0 < runConsume (d :: rest) := runConsume_pos (by omega)
              omega

/-- Collapsing cannot create a reference token. -/
theorem tokIn_of_collapse {m : List Char} (h : TokIn (collapseNl m)) :
    TokIn m := by
  suffices hgen : ∀ (n : Nat) (m : List Char), m.length ≤ n →
      TokIn (collapseNl m) → TokIn m by
    exact hgen m.length m (le_refl _) h
  intro n
  induction n with
  | zero =>
    intro m hm htok
    have hm0 : m = [] := by
      cases m with
      | nil => rfl
      | cons d r => simp at hm
    rw [hm0, collapseNl_nil] at htok
    exact absurd htok not_tokIn_nil
  | succ n ihn =>
    intro m hm htok
    obtain ⟨a, p, c, b, heq, hp, hpc, hc⟩ := htok
    cases a with
    | nil =>
      simp only [List.nil_append] at heq
      obtain ⟨m1, hm1, h1⟩ := collapse_peel_ne (by decide) heq
      obtain ⟨q, b', hq, hqc, hqn⟩ :=
        collapse_tok_aux m1.length m1 (le_refl _) p c b hpc hc h1
      exact ⟨[], q, c, b', by rw [hm1, hq]; rfl, hqn hp, hqc, hc⟩
    | cons x a' =>
      cases m with
      | nil =>
        rw [collapseNl_nil] at heq
        exact absurd heq.symm (by simp)
      | cons d rest =>
        rcases hnm : nlMatch (d :: rest) with _ | r
        · rw [collapseNl_cons_none hnm] at heq
          obtain ⟨hdx, hrest⟩ : d = x ∧
              collapseNl rest = a' ++ '@' :: (p ++ ':' :: '/' :: '/' :: c :: b) := by
            simpa using heq
          have htr : TokIn rest :=
            ihn rest (by simp only [List.length_cons] at hm; omega)
              ⟨a', p, c, b, hrest, hp, hpc, hc⟩
          exact htr.cons d
        · obtain ⟨hh, hcount, hr⟩ := nlMatch_elim hnm
          rw [collapseNl_cons_some hnm] at heq
          obtain ⟨hx, hrest1⟩ : '\n' = x ∧
              '\n' :: collapseNl r = a' ++ '@' :: (p ++ ':' :: '/' :: '/' :: c :: b) := by
            simpa using heq
          cases a' with
          | nil => simp at hrest1
          | cons y a'' =>
            obtain ⟨hy, hrest2⟩ : '\n' = y ∧
                collapseNl r = a'' ++ '@' :: (p ++ ':' :: '/' :: '/' :: c :: b) := by
              simpa using hrest1
            have hrlen : r.length ≤ n := by
              have h5 := nlMatch_length hnm
              simp only [List.length_cons] at h5 hm
              omega
            have htr : TokIn r :=
              ihn r hrlen ⟨a'', p, c, b, hrest2, hp, hpc, hc⟩
            have hmr : (d :: rest) =
                (d :: rest).take (runConsume (d :: rest)) ++ r := by
              conv_lhs => rw [← List.take_append_drop (runConsume (d :: rest)) (d :: rest)]
              rw [← hr]
            rw [hmr]
            exact tokIn_append_left _ htr

/-! ### The stripping passes only delete characters -/

theorem dropTag_suffix {l r : List Char} (h : dropTag l = some r) : r <:+ l := by
  induction l with
  | nil => simp [dropTag] at h
  | cons c rest ih =>
    by_cases hc : c = '>'
    · simp [dropTag, hc] at h
      exact h ▸ List.suffix_cons c rest
    · simp only [dropTag, if_neg hc] at h
      exact (ih h).trans (List.suffix_cons c rest)

theorem refOpenMatch_suffix {l r : List Char} (h : refOpenMatch l = some r) :
    r <:+ l := by
  unfold refOpenMatch at h
  by_cases hp : litPre (fun a b => a == b) refOpenPat l
  · rw [if_pos hp] at h
    exact (dropTag_suffix h).trans (drop_suffix' _ _)
  · rw [if_neg hp] at h; exact absurd h (by simp)

theorem refCloseMatch_suffix {l r : List Char} (h : refCloseMatch l = some r) :
    r <:+ l := by
  unfold refCloseMatch at h
  by_cases hp : litPre (fun a b => a == b) refClosePat l
  · rw [if_pos hp] at h
    exact (Option.some.inj h) ▸ drop_suffix' _ _
  · rw [if_neg hp] at h; exact absurd h (by simp)

theorem stripRefOpen_sublist (l : List Char) : (stripRefOpen l).Sublist l := by
  induction l using stripRefOpen.induct with
  | case1 => rw [stripRefOpen_nil]
  | case2 c rest hsome ih =>
    have hm : refOpenMatch (c :: rest) = some ((refOpenMatch (c :: rest)).get hsome) :=
      (Option.some_get hsome).symm
    rw [stripRefOpen_cons_some hm]
    exact ih.trans (refOpenMatch_suffix hm).sublist
  | case3 c rest hnone ih =>
    rw [stripRefOpen_cons_none (Option.not_isSome_iff_eq_none.mp hnone)]
    exact ih.cons₂ c

theorem stripRefClose_sublist (l : List Char) : (stripRefClose l).Sublist l := by
  induction l using stripRefClose.induct with
  | case1 => rw [stripRefClose_nil]
  | case2 c rest hsome ih =>
    have hm : refCloseMatch (c :: rest) = some ((refCloseMatch (c :: rest)).get hsome) :=
      (Option.some_get hsome).symm
    rw [stripRefClose_cons_some hm]
    exact ih.trans (refCloseMatch_suffix hm).sublist
  | case3 c rest hnone ih =>
    rw [stripRefClose_cons_none (Option.not_isSome_iff_eq_none.mp hnone)]
    exact ih.cons₂ c

theorem collapseNl_sublist (l : List Char) : (collapseNl l).Sublist l := by
  induction l using collapseNl.induct with
  | case1 => rw [collapseNl_nil]
  | case2 c rest hsome ih =>
    have hm : nlMatch (c :: rest) = some ((nlMatch (c :: rest)).get hsome) :=
      (Option.some_get hsome).symm
    obtain ⟨hh, hcount, hr⟩ := nlMatch_elim hm
    rw [collapseNl_cons_some hm]
    have htake : ((c :: rest).take (runConsume (c :: rest))).count '\n' =
        (wsRun (c :: rest)).count '\n' := by
      rw [take_pre_ws _ _ (runConsume_le_wsRun _)]
      exact count_nl_take_runConsume (c :: rest)
    have h2nl : (List.replicate 2 '\n').Sublist
        ((c :: rest).take (runConsume (c :: rest))) := by
      rw [← List.le_count_iff_replicate_sublist, htake]
      omega
    have hshape : '\n' :: '\n' :: collapseNl ((nlMatch (c :: rest)).get hsome) =
        List.replicate 2 '\n' ++ collapseNl ((nlMatch (c :: rest)).get hsome) := rfl
    rw [hshape]
    have happ : (List.replicate 2 '\n' ++
        collapseNl ((nlMatch (c :: rest)).get hsome)).Sublist
        ((c :: rest).take (runConsume (c :: rest)) ++
          (c :: rest).drop (runConsume (c :: rest))) := by
      apply List.Sublist.append h2nl
      rw [← hr]
      exact ih
    have hta := List.take_append_drop (runConsume (c :: rest)) (c :: rest)
    conv_rhs => rw [← hta]
    exact happ
  | case3 c rest hnone ih =>
    rw [collapseNl_cons_none (Option.not_isSome_iff_eq_none.mp hnone)]
    exact ih.cons₂ c

theorem jsTrim_sublist (l : List Char) : (jsTrim l).Sublist l :=
  (jsTrim_within l).sublist

/-! ### The reference-tag passes are inert without `<` -/

theorem litPre_refOpen_head {c : Char} {rest : List Char}
    (h : litPre (fun a b => a == b) refOpenPat (c :: rest) = true) : c = '<' := by
  rw [show refOpenPat = '<' :: ['r', 'e', 'f', 'e', 'r', 'e', 'n', 'c', 'e'] from rfl,
    litPre] at h
  have h1 : ('<' == c) = true := by
    cases hb : ('<' == c)
    · rw [hb] at h; simp at h
    · rfl
  exact (beq_iff_eq.mp h1).symm

theorem litPre_refClose_head {c : Char} {rest : List Char}
    (h : litPre (fun a b => a == b) refClosePat (c :: rest) = true) : c = '<' := by
  rw [show refClosePat =
    '<' :: ['/', 'r', 'e', 'f', 'e', 'r', 'e', 'n', 'c', 'e', '>'] from rfl,
    litPre] at h
  have h1 : ('<' == c) = true := by
    cases hb : ('<' == c)
    · rw [hb] at h; simp at h
    · rfl
  exact (beq_iff_eq.mp h1).symm

theorem stripRefOpen_eq_self_of_not_mem {l : List Char} (h : '<' ∉ l) :
    stripRefOpen l = l := by
  induction l using stripRefOpen.induct with
  | case1 => exact stripRefOpen_nil
  | case2 c rest hsome ih =>
    exfalso
    by_cases hp : litPre (fun a b => a == b) refOpenPat (c :: rest) = true
    · exact h (by rw [litPre_refOpen_head hp]; simp)
    · have hnone : refOpenMatch (c :: rest) = none := by
        unfold refOpenMatch
        rw [if_neg hp]
      rw [hnone] at hsome
      simp at hsome
  | case3 c rest hnone ih =>
    rw [stripRefOpen_cons_none (Option.not_isSome_iff_eq_none.mp hnone)]
    rw [ih (fun hr => h (by simp [hr]))]

theorem stripRefClose_eq_self_of_not_mem {l : List Char} (h : '<' ∉ l) :
    stripRefClose l = l := by
  induction l using stripRefClose.induct with
  | case1 => exact stripRefClose_nil
  | case2 c rest hsome ih =>
    exfalso
    by_cases hp : litPre (fun a b => a == b) refClosePat (c :: rest) = true
    · exact h (by rw [litPre_refClose_head hp]; simp)
    · have hnone : refCloseMatch (c :: rest) = none := by
        unfold refCloseMatch
        rw [if_neg hp]
      rw [hnone] at hsome
      simp at hsome
  | case3 c rest hnone ih =>
    rw [stripRefClose_cons_none (Option.not_isSome_iff_eq_none.mp hnone)]
    rw [ih (fun hr => h (by simp [hr]))]

/-! ### Fuelled twins of the scanners

The four global-replace scanners recurse by well-founded recursion, which
the kernel cannot evaluate; the following structurally recursive twins agree
with them whenever the fuel covers the input length, and make concrete
runs of `cleanContent` kernel-computable. -/

def stripRefOpenF : Nat → List Char → List Char
  | 0, l => l
  | _ + 1, [] => []
  | fuel + 1, c :: rest =>
    match refOpenMatch (c :: rest) with
    | some r => stripRefOpenF fuel r
    | none => c :: stripRefOpenF fuel rest

def stripRefCloseF : Nat → List Char → List Char
  | 0, l => l
  | _ + 1, [] => []
  | fuel + 1, c :: rest =>
    match refCloseMatch (c :: rest) with
    | some r => stripRefCloseF fuel r
    | none => c :: stripRefCloseF fuel rest

def stripAtF : Nat → List Char → List Char
  | 0, l => l
  | _ + 1, [] => []
  | fuel + 1, c :: rest =>
    (atMatch (c :: rest)).elim (c :: stripAtF fuel rest) (fun r => stripAtF fuel r)

def collapseNlF : Nat → List Char → List Char
  | 0, l => l
  | _ + 1, [] => []
  | fuel + 1, c :: rest =>
    (nlMatch (c :: rest)).elim (c :: collapseNlF fuel rest)
      (fun r => '\n' :: '\n' :: collapseNlF fuel r)

theorem stripRefOpenF_eq :
    ∀ (fuel : Nat) (l : List Char), l.length ≤ fuel →
      stripRefOpenF fuel l = stripRefOpen l := by
  intro fuel
  induction fuel with
  | zero =>
    intro l hl
    have h0 : l = [] := by
      cases l with
      | nil => rfl
      | cons c r => simp at hl
    rw [h0, stripRefOpen_nil]; rfl
  | succ n ih =>
    intro l hl
    cases l with
    | nil => rw [stripRefOpen_nil]; rfl
    | cons c rest =>
      rcases hm : refOpenMatch (c :: rest) with _ | r
      · rw [stripRefOpen_cons_none hm]
        simp only [stripRefOpenF, hm]
        rw [ih rest (by simp only [List.length_cons] at hl; omega)]
      · rw [stripRefOpen_cons_some hm]
        simp only [stripRefOpenF, hm]
        rw [ih r (by
          have := refOpenMatch_length hm
          simp only [List.length_cons] at hl this
          omega)]

theorem stripRefCloseF_eq :
    ∀ (fuel : Nat) (l : List Char), l.length ≤ fuel →
      stripRefCloseF fuel l = stripRefClose l := by
  intro fuel
  induction fuel with
  | zero =>
    intro l hl
    have h0 : l = [] := by
      cases l with
      | nil => rfl
      | cons c r => simp at hl
    rw [h0, stripRefClose_nil]; rfl
  | succ n ih =>
    intro l hl
    cases l with
    | nil => rw [stripRefClose_nil]; rfl
    | cons c rest =>
      rcases hm : refCloseMatch (c :: rest) with _ | r
      · rw [stripRefClose_cons_none hm]
        simp only [stripRefCloseF, hm]
        rw [ih rest (by simp only [List.length_cons] at hl; omega)]
      · rw [stripRefClose_cons_some hm]
        simp only [stripRefCloseF, hm]
        rw [ih r (by
          have := refCloseMatch_length hm (by simp)
          simp only [List.length_cons] at hl this
          omega)]

set_option maxHeartbeats 2000000 in
theorem stripAtF_eq :
    ∀ (fuel : Nat) (l : List Char), l.length ≤ fuel →
      stripAtF fuel l = stripAt l := by
  intro fuel
  induction fuel with
  | zero =>
    intro l hl
    have h0 : l = [] := by
      cases l with
      | nil => rfl
      | cons c r => simp at hl
    rw [h0, stripAt_nil]; rfl
  | succ n ih =>
    intro l hl
    cases l with
    | nil => rw [stripAt_nil]; rfl
    | cons c rest =>
      rcases hm : atMatch (c :: rest) with _ | r
      · rw [stripAt_cons_none hm]
        simp only [stripAtF, hm, Option.elim]
        rw [ih rest (by simp only [List.length_cons] at hl; omega)]
      · rw [stripAt_cons_some hm]
        simp only [stripAtF, hm, Option.elim]
        exact ih r (by
          have := atMatch_length hm
          simp only [List.length_cons] at hl this
          omega)

theorem collapseNlF_eq :
    ∀ (fuel : Nat) (l : List Char), l.length ≤ fuel →
      collapseNlF fuel l = collapseNl l := by
  intro fuel
  induction fuel with
  | zero =>
    intro l hl
    have h0 : l = [] := by
      cases l with
      | nil => rfl
      | cons c r => simp at hl
    rw [h0, collapseNl_nil]; rfl
  | succ n ih =>
    intro l hl
    cases l with
    | nil => rw [collapseNl_nil]; rfl
    | cons c rest =>
      rcases hm : nlMatch (c :: rest) with _ | r
      · rw [collapseNl_cons_none hm]
        simp only [collapseNlF, hm, Option.elim]
        rw [ih rest (by simp only [List.length_cons] at hl; omega)]
      · rw [collapseNl_cons_some hm]
        simp only [collapseNlF, hm, Option.elim]
        rw [ih r (by
          have := nlMatch_length hm
          simp only [List.length_cons] at hl this
          omega)]

/-- Kernel-computable form of `cleanContentL`. -/
def cleanContentF (l : List Char) : List Char :=
  if l.isEmpty then []
  else jsTrim (collapseNlF l.length
    (stripAtF l.length (stripRefCloseF l.length (stripRefOpenF l.length l))))

theorem cleanContentF_eq (l : List Char) : cleanContentF l = cleanContentL l := by
  unfold cleanContentF cleanContentL
  by_cases he : l.isEmpty
  · rw [if_pos he, if_pos he]
  · rw [if_neg he, if_neg he]
    have h1 : stripRefOpenF l.length l = stripRefOpen l :=
      stripRefOpenF_eq _ _ (le_refl _)
    rw [h1]
    have hl1 : (stripRefOpen l).length ≤ l.length :=
      (stripRefOpen_sublist l).length_le
    have h2 : stripRefCloseF l.length (stripRefOpen l) =
        stripRefClose (stripRefOpen l) := stripRefCloseF_eq _ _ hl1
    rw [h2]
    have hl2 : (stripRefClose (stripRefOpen l)).length ≤ l.length :=
      le_trans (stripRefClose_sublist _).length_le hl1
    have h3 : stripAtF l.length (stripRefClose (stripRefOpen l)) =
        stripAt (stripRefClose (stripRefOpen l)) := stripAtF_eq _ _ hl2
    rw [h3]
    have hl3 : (stripAt (stripRefClose (stripRefOpen l))).length ≤ l.length :=
      le_trans (stripAt_sublist _).length_le hl2
    have h4 : collapseNlF l.length (stripAt (stripRefClose (stripRefOpen l))) =
        collapseNl (stripAt (stripRefClose (stripRefOpen l))) :=
      collapseNlF_eq _ _ hl3
    rw [h4]

theorem cleanContent_eval (s : String) : cleanContent s = ⟨cleanContentF s.data⟩ := by
  unfold cleanContent
  rw [cleanContentF_eq]

/-! ### Properties of `cleanContent` -/

theorem cleanContentL_sublist (l : List Char) : (cleanContentL l).Sublist l := by
  unfold cleanContentL
  by_cases he : l.isEmpty
  · rw [if_pos he]; exact List.nil_sublist l
  · rw [if_neg he]
    exact ((((jsTrim_sublist _).trans (collapseNl_sublist _)).trans
      (stripAt_sublist _)).trans (stripRefClose_sublist _)).trans
      (stripRefOpen_sublist _)

theorem cleanContentL_runs2 (l : List Char) :
    ∀ w, w <:+: cleanContentL l → (∀ x ∈ w, isWs x = true) →
      w.count '\n' ≤ 2 := by
  intro w hinf hw
  unfold cleanContentL at hinf
  by_cases he : l.isEmpty
  · rw [if_pos he] at hinf
    rw [List.eq_nil_of_infix_nil hinf]
    simp
  · rw [if_neg he] at hinf
    exact collapse_infix_ws_count _ _ (hinf.trans (jsTrim_within _)) hw

theorem not_tokIn_cleanContentL {l : List Char} (h : l.count '@' ≤ 1) :
    ¬ TokIn (cleanContentL l) := by
  intro htok
  unfold cleanContentL at htok
  by_cases he : l.isEmpty
  · rw [if_pos he] at htok
    exact not_tokIn_nil htok
  · rw [if_neg he] at htok
    have ht2 := tokIn_of_collapse (tokIn_of_within htok (jsTrim_within _))
    have hcnt : (stripRefClose (stripRefOpen l)).count '@' ≤ 1 :=
      le_trans (((stripRefClose_sublist _).trans (stripRefOpen_sublist _)).count_le '@') h
    exact not_tokIn_stripAt hcnt ht2

theorem cleanContentL_trimmed (l : List Char) :
    jsTrim (cleanContentL l) = cleanContentL l := by
  unfold cleanContentL
  by_cases he : l.isEmpty
  · rw [if_pos he]; rfl
  · rw [if_neg he]
    exact jsTrim_idem _

theorem cleanContentL_fixed {l : List Char} (hlt : '<' ∉ l) (htok : ¬ TokIn l)
    (hruns : ∀ w, w <:+: l → (∀ x ∈ w, isWs x = true) → w.count '\n' ≤ 2)
    (htrim : jsTrim l = l) :
    cleanContentL l = l := by
  unfold cleanContentL
  by_cases he : l.isEmpty
  · rw [if_pos he]; exact (List.isEmpty_iff.mp he).symm
  · rw [if_neg he, stripRefOpen_eq_self_of_not_mem hlt,
      stripRefClose_eq_self_of_not_mem hlt, stripAt_eq_self_of_not_tokIn htok,
      collapse_eq_self hruns, htrim]

/-- **C1** (counterexample): `cleanContent` is *not* idempotent on all
inputs.  Stripping the inner `<reference Z>` tag from
`"<refer<reference Z>ence W>"` splices its context into a fresh
`<reference W>` tag, which only the second application removes. -/
theorem claim_C1_counterexample :
    cleanContent (cleanContent "<refer<reference Z>ence W>") ≠
      cleanContent "<refer<reference Z>ence W>" ∧
    cleanContent "<refer<reference Z>ence W>" = "<reference W>" ∧
    cleanContent "<reference W>" = "" := by
  refine ⟨?_, ?_, ?_⟩
  · simp only [cleanContent_eval]
    decide
  · rw [cleanContent_eval]
    decide
  · rw [cleanContent_eval]
    decide

/-- **C1** (amended): `cleanContent` is idempotent on every input that
contains no `'<'` character and at most one `'@'` character.  (The
counterexamples to the unrestricted claim all splice a new `<reference …>`
tag or a new `@p://r` token out of two fragments.) -/
theorem claim_C1_amended (s : String) (h1 : '<' ∉ s.data)
    (h2 : s.data.count '@' ≤ 1) :
    cleanContent (cleanContent s) = cleanContent s := by
  have hkey : cleanContentL (cleanContentL s.data) = cleanContentL s.data := by
    apply cleanContentL_fixed
    · intro hmem
      exact h1 ((cleanContentL_sublist s.data).subset hmem)
    · exact not_tokIn_cleanContentL h2
    · exact cleanContentL_runs2 s.data
    · exact cleanContentL_trimmed s.data
  show (⟨cleanContentL (cleanContentL s.data)⟩ : String) = ⟨cleanContentL s.data⟩
  exact congrArg String.mk hkey

/-- Witness for **C1** (amended) at a concrete input. -/
theorem claim_C1_witness :
    '<' ∉ "a  @x://y  b\n\n\n\nc".data ∧
    "a  @x://y  b\n\n\n\nc".data.count '@' ≤ 1 ∧
    cleanContent (cleanContent "a  @x://y  b\n\n\n\nc") =
      cleanContent "a  @x://y  b\n\n\n\nc" :=
  ⟨by decide, by decide, claim_C1_amended _ (by decide) (by decide)⟩

/-- **C6** (counterexample): the output of `cleanContent` can contain a
reference token: stripping ` @a://b ` from `"@x: @a://b //y"` splices the
context into the fresh token `@x://y`. -/
theorem claim_C6_counterexample :
    cleanContent "@x: @a://b //y" = "@x://y" ∧
    TokIn (cleanContent "@x: @a://b //y").data := by
  constructor
  · rw [cleanContent_eval]
    decide
  · rw [cleanContent_eval]
    refine ⟨[], ['x'], 'y', [], by decide, by simp, ?_, by decide⟩
    intro x hx
    have hx' : x = 'x' := by simpa using hx
    rw [hx']
    decide

/-- **C6** (amended): the output of `cleanContent` never contains a run of
three or more consecutive newlines; and whenever the input contains at most
one `'@'`, the output contains no `@protocol://resource` (or
`@!protocol://resource`) reference token either. -/
theorem claim_C6_amended (s : String) :
    ¬ ['\n', '\n', '\n'] <:+: (cleanContent s).data ∧
    (s.data.count '@' ≤ 1 → ¬ TokIn (cleanContent s).data) := by
  constructor
  · intro hinf
    have h3 := cleanContentL_runs2 s.data _ hinf (by decide)
    simp [List.count_cons] at h3
  · intro hc
    exact not_tokIn_cleanContentL hc

/-- Witness for **C6** (amended) at a concrete input. -/
theorem claim_C6_witness :
    ¬ ['\n', '\n', '\n'] <:+: (cleanContent "a\n\n\n\nb @t://u x").data ∧
    ¬ TokIn (cleanContent "a\n\n\n\nb @t://u x").data :=
  ⟨(claim_C6_amended "a\n\n\n\nb @t://u x").1,
    (claim_C6_amended "a\n\n\n\nb @t://u x").2 (by decide)⟩

/-! ## `RoleLoader.parseDPMLContent` and `extractSection` (lines 67–94)

```js
const roleMatch = content.match(/<role>([\s\S]*?)<\/role>/);
…
const regex = new RegExp(`<${tagName}>([\\s\\S]*?)<\\/${tagName}>`, 'i');
```

A lazy `([\s\S]*?)` between two literal delimiters matches from the first
occurrence of the opening delimiter to the first occurrence of the closing
delimiter after it (an occurrence after a later opening delimiter would
also lie after the first one, so first-open/first-close is the leftmost
match). -/

/-- Case-sensitive character comparison. -/
def eqCS (a b : Char) : Bool := a == b

/-- Case-insensitive character comparison (regex flag `i`). -/
def eqCI (a b : Char) : Bool := a.toLower == b.toLower

/-- Split at the first occurrence of the literal `pat` (under `eqc`):
returns the text before the occurrence and the text after it. -/
def splitFirstBy (eqc : Char → Char → Bool) (pat : List Char) :
    List Char → Option (List Char × List Char)
  | [] => if pat.isEmpty then some ([], []) else none
  | c :: rest =>
    if litPre eqc pat (c :: rest) then some ([], (c :: rest).drop pat.length)
    else
      match splitFirstBy eqc pat rest with
      | some (a, b) => some (c :: a, b)
      | none => none

/-- Lazy span `open([\s\S]*?)close`: text between the first occurrence of
`openPat` and the first occurrence of `closePat` after it. -/
def lazySpan (eqc : Char → Char → Bool) (openPat closePat l : List Char) :
    Option (List Char) :=
  match splitFirstBy eqc openPat l with
  | none => none
  | some (_, afterOpen) =>
    match splitFirstBy eqc closePat afterOpen with
    | none => none
    | some (mid, _) => some mid

/-- `RoleLoader.extractSection`: case-insensitive
`<tag>([\s\S]*?)</tag>`, returning the trimmed group or `null`. -/
def extractSection (content : List Char) (tagName : List Char) :
    Option (List Char) :=
  (lazySpan eqCI ('<' :: tagName ++ ['>']) ('<' :: '/' :: tagName ++ ['>'])
    content).map jsTrim

/-- The case-sensitive `/<role>([\s\S]*?)<\/role>/` match of
`parseDPMLContent`. -/
def matchRole (content : List Char) : Option (List Char) :=
  lazySpan eqCS ['<', 'r', 'o', 'l', 'e', '>']
    ['<', '/', 'r', 'o', 'l', 'e', '>'] content

/-- The three optional section slots.  In the source, a content string with
no `<role>` match yields the empty object `{}` and one with a match yields
all three keys with `null` for a missing tag; both are modelled as `none`
slots, which is faithful because every consumer tests the slots for
truthiness only. -/
structure Sections where
  personality : Option String
  principle : Option String
  knowledge : Option String
deriving DecidableEq, Repr

/-- `RoleLoader.parseDPMLContent` (lines 67–82). -/
def parseDPMLContent (content : String) : Sections :=
  match matchRole content.data with
  | some roleContent =>
    ⟨(extractSection roleContent "personality".data).map (fun l => (⟨l⟩ : String)),
     (extractSection roleContent "principle".data).map (fun l => (⟨l⟩ : String)),
     (extractSection roleContent "knowledge".data).map (fun l => (⟨l⟩ : String))⟩
  | none => ⟨none, none, none⟩

/-! ## `DependencyAnalyzer` (lines 100–203) -/

/-- A `ResourceReference` extracted from section text. -/
structure Ref where
  protocol : String
  resource : String
deriving DecidableEq, Repr

/-- Capturing form of the token core `([^:]+):\/\/([^\s\>\<\n]+)` used by
`extractResourceReferences`' `matchAll` regex. -/
def refMatchCore (l : List Char) : Option (Ref × List Char) :=
  if (l.takeWhile (fun c => c ≠ ':')).isEmpty then none
  else
    match l.drop (l.takeWhile (fun c => c ≠ ':')).length with
    | ':' :: '/' :: '/' :: r =>
      if (r.takeWhile resChar).isEmpty then none
      else some (⟨⟨l.takeWhile (fun c => c ≠ ':')⟩, ⟨r.takeWhile resChar⟩⟩,
        r.drop (r.takeWhile resChar).length)
    | _ => none

/-- One attempt of `@!?([^:]+):\/\/([^\s\>\<\n]+)` anchored at the head,
returning the captured reference and the remainder after the match. -/
def refAt (l : List Char) : Option (Ref × List Char) :=
  match l with
  | '@' :: '!' :: t =>
    match refMatchCore t with
    | some x => some x
    | none => refMatchCore ('!' :: t)
  | '@' :: t => refMatchCore t
  | _ => none

theorem refMatchCore_length {l : List Char} {x : Ref × List Char}
    (h : refMatchCore l = some x) : x.2.length + 5 ≤ l.length := by
  unfold refMatchCore at h
  by_cases hpe : (l.takeWhile (fun c => c ≠ ':')).isEmpty
  · rw [if_pos hpe] at h; exact absurd h (by simp)
  · rw [if_neg hpe] at h
    have hplen : 0 < (l.takeWhile (fun c => c ≠ ':')).length := by
      rcases he : l.takeWhile (fun c => c ≠ ':') with _ | ⟨y, ys⟩
      · rw [he] at hpe; exact absurd rfl hpe
      · simp
    have hple : (l.takeWhile (fun c => c ≠ ':')).length ≤ l.length :=
      takeWhile_len_le _ l
    split at h
    next r1 heq =>
      by_cases hre : (r1.takeWhile resChar).isEmpty
      · rw [if_pos hre] at h; exact absurd h (by simp)
      · rw [if_neg hre] at h
        have hrlen : 0 < (r1.takeWhile resChar).length := by
          rcases he : r1.takeWhile resChar with _ | ⟨y, ys⟩
          · rw [he] at hre; exact absurd rfl hre
          · simp
        have hrle : (r1.takeWhile resChar).length ≤ r1.length :=
          takeWhile_len_le _ r1
        have hdl : (l.drop (l.takeWhile (fun c => c ≠ ':')).length).length =
            r1.length + 3 := by rw [heq]; simp
        rw [List.length_drop] at hdl
        have hx := Option.some.inj h
        have hxs : x.2.length = r1.length - (r1.takeWhile resChar).length := by
          rw [← hx]; simp
        omega
    next => exact absurd h (by simp)

theorem refAt_length {l : List Char} {x : Ref × List Char}
    (h : refAt l = some x) : x.2.length < l.length := by
  unfold refAt at h
  split at h
  next t =>
    rcases hc : refMatchCore t with _ | y
    · rw [hc] at h
      have := refMatchCore_length h
      simp only [List.length_cons] at this ⊢
      omega
    · rw [hc] at h
      have hy : y = x := Option.some.inj h
      have := refMatchCore_length hc
      rw [hy] at this
      simp only [List.length_cons]
      omega
  next t =>
    have := refMatchCore_length h
    simp only [List.length_cons]
    omega
  next => exact absurd h (by simp)

/-- `String.prototype.matchAll` of the reference-token regex: collect one
`Ref` per non-overlapping leftmost match, scanning left to right. -/
def scanRefs : List Char → List Ref
  | [] => []
  | c :: rest =>
    if h : (refAt (c :: rest)).isSome then
      ((refAt (c :: rest)).get h).1 :: scanRefs ((refAt (c :: rest)).get h).2
    else scanRefs rest
termination_by l => l.length
decreasing_by
  · exact refAt_length (Option.some_get h).symm
  · simp

theorem scanRefs_nil : scanRefs [] = [] := by rw [scanRefs]

theorem scanRefs_cons_some {c : Char} {rest : List Char} {x : Ref × List Char}
    (hm : refAt (c :: rest) = some x) :
    scanRefs (c :: rest) = x.1 :: scanRefs x.2 := by
  have hs : (refAt (c :: rest)).isSome := by rw [hm]; rfl
  have hg : (refAt (c :: rest)).get hs = x :=
    Option.some.inj ((Option.some_get hs).trans hm)
  rw [scanRefs, dif_pos hs, hg]

theorem scanRefs_cons_none {c : Char} {rest : List Char}
    (hm : refAt (c :: rest) = none) :
    scanRefs (c :: rest) = scanRefs rest := by
  have hs : ¬ (refAt (c :: rest)).isSome := by rw [hm]; simp
  rw [scanRefs, dif_neg hs]

/-- Structurally recursive twin of `scanRefs` for kernel evaluation. -/
def scanRefsF : Nat → List Char → List Ref
  | 0, _ => []
  | _ + 1, [] => []
  | fuel + 1, c :: rest =>
    (refAt (c :: rest)).elim (scanRefsF fuel rest)
      (fun x => x.1 :: scanRefsF fuel x.2)

theorem scanRefsF_eq :
    ∀ (fuel : Nat) (l : List Char), l.length ≤ fuel →
      scanRefsF fuel l = scanRefs l := by
  intro fuel
  induction fuel with
  | zero =>
    intro l hl
    have h0 : l = [] := by
      cases l with
      | nil => rfl
      | cons c r => simp at hl
    rw [h0, scanRefs_nil]; rfl
  | succ n ih =>
    intro l hl
    cases l with
    | nil => rw [scanRefs_nil]; rfl
    | cons c rest =>
      rcases hm : refAt (c :: rest) with _ | x
      · rw [scanRefs_cons_none hm]
        simp only [scanRefsF, hm, Option.elim]
        exact ih rest (by simp only [List.length_cons] at hl; omega)
      · rw [scanRefs_cons_some hm]
        simp only [scanRefsF, hm, Option.elim]
        rw [ih x.2 (by
          have := refAt_length hm
          simp only [List.length_cons] at hl this
          omega)]

/-- `extractFromText` (lines 165–173): the falsy guard maps `null` and the
empty string to no references. -/
def extractFromText : Option String → List Ref
  | none => []
  | some s => if s.isEmpty then [] else scanRefs s.data

/-- `DependencyAnalyzer.extractResourceReferences` (lines 162–181):
`Object.values(sections)` iterates insertion order
(personality, principle, knowledge). -/
def extractResourceReferences (sections : Sections) : List Ref :=
  extractFromText sections.personality ++ extractFromText sections.principle ++
    extractFromText sections.knowledge

/-- Structurally evaluable twin of `extractFromText`. -/
def extractFromTextF : Option String → List Ref
  | none => []
  | some s => if s.isEmpty then [] else scanRefsF s.data.length s.data

theorem extractFromTextF_eq (o : Option String) :
    extractFromTextF o = extractFromText o := by
  cases o with
  | none => rfl
  | some s =>
    by_cases h : s.isEmpty
    · simp only [extractFromTextF, extractFromText, if_pos h]
    · simp only [extractFromTextF, extractFromText, if_neg h]
      exact scanRefsF_eq s.data.length s.data (le_refl _)

theorem extractFromTextF_triple (sections : Sections) :
    extractFromTextF sections.personality ++
      extractFromTextF sections.principle ++
      extractFromTextF sections.knowledge =
    extractResourceReferences sections := by
  unfold extractResourceReferences
  rw [extractFromTextF_eq, extractFromTextF_eq, extractFromTextF_eq]

/-- One observed outcome of `resourceManager.loadResource(address)`: either
a returned result `{success, content}` or a thrown error. -/
inductive LoadOutcome where
  | ok (success : Bool) (content : Option String)
  | threw (msg : String)
deriving DecidableEq

/-- The reconstructed `@protocol://resource` address. -/
def refUrl (ref : Ref) : String :=
  "@" ++ ref.protocol ++ "://" ++ ref.resource

/-- `DependencyAnalyzer.loadDependency` (lines 188–203): returns the
content only when the result is present, successful and has truthy
(non-empty) content; any thrown error is caught and becomes `null`.  This
function never throws, so every promise passed to `Promise.allSettled` is
fulfilled. -/
def loadDependency (rm : String → LoadOutcome) (ref : Ref) : Option String :=
  match rm (refUrl ref) with
  | .threw _ => none
  | .ok success content =>
    if success then
      match content with
      | some c => if c = "" then none else some c
      | none => none
    else none

/-- A `{id, content}` entry of the dependency bundle. -/
structure Dep where
  id : String
  content : String
deriving DecidableEq, Repr

/-- The `DependencyBundle`. -/
structure Bundle where
  thoughts : List Dep
  executions : List Dep
  knowledges : List Dep
deriving DecidableEq, Repr

/-- One step of the `results.forEach((result, index) => …)` classification
switch: a fulfilled result with truthy value is pushed onto the bucket
selected by the originating reference's protocol; unrecognized protocols
fall through the `switch` and are dropped. -/
def bundleStep (load : Ref → Option String) (acc : Bundle) (ref : Ref) : Bundle :=
  match load ref with
  | some content =>
    if ref.protocol = "thought" then
      ⟨acc.thoughts ++ [⟨ref.resource, content⟩], acc.executions, acc.knowledges⟩
    else if ref.protocol = "execution" then
      ⟨acc.thoughts, acc.executions ++ [⟨ref.resource, content⟩], acc.knowledges⟩
    else if ref.protocol = "knowledge" then
      ⟨acc.thoughts, acc.executions, acc.knowledges ++ [⟨ref.resource, content⟩]⟩
    else acc
  | none => acc

/-- The classification loop over the settled results, re-associated with
their originating references by index (`allRefs[index]`), in index order. -/
def buildBundle (refs : List Ref) (load : Ref → Option String) : Bundle :=
  refs.foldl (bundleStep load) ⟨[], [], []⟩

/-- `DependencyAnalyzer.analyzeDependencies` (lines 110–155).  The
concurrent resolution (`Promise.allSettled` over `allRefs.map`) is modelled
by applying the per-reference loader pointwise: `loadDependency` never
rejects, settlement order does not influence the result because the
`forEach` walks results in index order. -/
def analyzeDependencies (sections : Sections) (rm : String → LoadOutcome) :
    Bundle :=
  buildBundle (extractResourceReferences sections) (loadDependency rm)

/-! ## `CognitionLoader.checkNetworkExists` (lines 219–249) -/

/-- The observed outcome of the single `fs.access(networkFilePath)` call:
success, or rejection with some error message (absence, permission denial,
or any other I/O failure — `fs.access` does not distinguish them for the
caller beyond the message). -/
inductive ProbeOutcome where
  | ok
  | err (msg : String)
deriving DecidableEq

/-- `CognitionStatus`. -/
structure CognitionStatus where
  hasNetwork : Bool
  networkPath : Option String
  error : Option String
deriving DecidableEq, Repr

/-- `path.join(os.homedir(), '.promptx', 'cognition', roleId, 'network.json')`,
modelled as `/`-separated concatenation (`path.join` normalisation of `..`
segments is not modelled). -/
def networkFilePath (home roleId : String) : String :=
  home ++ "/.promptx/cognition/" ++ roleId ++ "/network.json"

/-- `checkNetworkExists`: the *inner* `try/catch` around `fs.access` maps
any access failure — absence and permission errors alike — to
`{hasNetwork: false, networkPath}`.  The *outer* `catch` (which would
produce `{hasNetwork: false, networkPath: null, error}`) is unreachable for
a string `roleId`: the only statement outside the inner `try` is
`path.join`, which cannot throw on strings.  The function never throws. -/
def checkNetworkExists (home : String) (probe : ProbeOutcome)
    (roleId : String) : CognitionStatus :=
  match probe with
  | .ok => ⟨true, some (networkFilePath home roleId), none⟩
  | .err _ => ⟨false, some (networkFilePath home roleId), none⟩

/-! ## `LayerAssembler.assembleContent` (lines 265–366) -/

/-- The `RoleDocument` built by `loadRole`. -/
structure RoleDoc where
  id : String
  raw : String
  sections : Sections
  metadata : List (String × String)
deriving DecidableEq

/-- JavaScript truthiness of an optional string
(`undefined`/`null`/`''` are falsy). -/
def strTruthy : Option String → Bool
  | none => false
  | some s => !s.isEmpty

/-- The `parts` array pushed by `assembleContent`, in push order. -/
def assembleParts (roleInfo : RoleDoc) (dependencies : Bundle)
    (cognitionData : CognitionStatus) (mode : String) : List String :=
  [ "# 🧠 [Consciousness Prime] " ++ roleInfo.id ++
      (if mode = "subagent" then "专业助手" else "角色已激活"),
    "",
    "## 💭 PromptX认知增强" ] ++
  (if cognitionData.hasNetwork then
    [ "🧠 **状态**: 该角色已建立经验网络",
      "",
      "🔧 **激活方式** (需要PromptX MCP服务器):",
      "- `recall " ++ roleInfo.id ++ "` - 激活该角色的完整经验网络",
      "- `recall " ++ roleInfo.id ++ " \"具体问题\"` - 检索相关历史经验",
      "- `remember " ++ roleInfo.id ++ " \"新知识\"` - 将新经验加入角色记忆",
      "",
      "💡 **说明**: 认知网络包含该角色的历史使用经验，通过recall工具动态激活" ]
  else
    [ "🌱 **状态**: 该角色尚未建立经验网络",
      "",
      "🚀 **开始使用**:",
      "- 安装并配置PromptX MCP服务器",
      "- 使用 `recall " ++ roleInfo.id ++ "` 开始建立认知网络",
      "- 随着使用逐步积累该角色的专业经验" ]) ++
  [""] ++
  (match roleInfo.sections.personality with
   | some p => if p.isEmpty then [] else ["## 🎭 角色人格", cleanContent p, ""]
   | none => []) ++
  (match roleInfo.sections.principle with
   | some p => if p.isEmpty then [] else ["## 🔧 工作原则", cleanContent p, ""]
   | none => []) ++
  (match roleInfo.sections.knowledge with
   | some p => if p.isEmpty then [] else ["## 📚 专业知识", cleanContent p, ""]
   | none => []) ++
  (if dependencies.thoughts.length > 0 then
    "## 💡 思维模式" ::
      dependencies.thoughts.flatMap
        (fun t => ["### " ++ t.id, cleanContent t.content, ""])
  else []) ++
  (if dependencies.executions.length > 0 then
    "## ⚡ 执行技能" ::
      dependencies.executions.flatMap
        (fun e => ["### " ++ e.id, cleanContent e.content, ""])
  else []) ++
  ["---", ""] ++
  (if mode = "command" then
    ["🎉 " ++ roleInfo.id ++ "角色激活完成！我现在以该角色身份为你服务。"]
  else
    ["## 🤖 助手说明",
     "我是基于PromptX " ++ roleInfo.id ++ "角色的专业AI助手。我会：",
     "- 始终保持" ++ roleInfo.id ++ "的专业身份和思维模式",
     "- 利用完整的PromptX工具生态提供专业服务",
     "- 在我们的对话过程中持续学习和记忆",
     "",
     "请告诉我你需要什么帮助？"]) ++
  ["",
   "---",
   "",
   "💡 **可用的PromptX工具生态**：",
   "- `recall " ++ roleInfo.id ++ "` - 激活该角色的历史经验网络",
   "- `remember " ++ roleInfo.id ++ " \"新体验\"` - 将新体验编织到角色记忆",
   "- `learn` - 学习新的资源和知识",
   "- `toolx` - 执行专业工具",
   "- 具体工具可用性取决于PromptX MCP服务器配置",
   ""] ++
  (if mode = "command" then ["现在开始处理用户需求。"] else [])

/-- `LayerAssembler.assembleContent`: `parts.join('\n')`. -/
def assembleContent (roleInfo : RoleDoc) (dependencies : Bundle)
    (cognitionData : CognitionStatus) (mode : String) : String :=
  String.intercalate "\n" (assembleParts roleInfo dependencies cognitionData mode)

/-! ## `RoleLoader.loadRole` (lines 30–60) and
`PromptXActionProcessor.processRole` (lines 407–431) -/

/-- The shared resource manager: `initialized` flag, the outcome of
`initializeWithNewArchitecture()` when it has to run, and the
`loadResource` oracle. -/
structure RM where
  initialized : Bool
  initResult : Except String Unit
  load : String → LoadOutcome

/-- The message of the error thrown by `loadRole` when the loader result is
missing, unsuccessful or has no (truthy) content. -/
def roleLoadErrMsg (roleId : String) : String :=
  "无法加载角色 " ++ roleId ++ " 的内容"

/-- `RoleLoader.loadRole` (lines 30–60): ensure initialization, request
`@role://<roleId>`, reject unsuccessful/empty results, parse the DPML
content.  The `catch` block logs and rethrows the same error, so the error
value is unchanged. -/
def loadRole (rm : RM) (roleId : String) : Except String RoleDoc :=
  match (if rm.initialized then Except.ok () else rm.initResult) with
  | .error e => .error e
  | .ok _ =>
    match rm.load ("@role://" ++ roleId) with
    | .threw msg => .error msg
    | .ok success content =>
      if success then
        match content with
        | some c =>
          if c = "" then .error (roleLoadErrMsg roleId)
          else .ok ⟨roleId, c, parseDPMLContent c, []⟩
        | none => .error (roleLoadErrMsg roleId)
      else .error (roleLoadErrMsg roleId)

/-- `PromptXActionProcessor.processRole` (lines 407–431): the four stages
in sequence; the outer `catch` logs and rethrows, so the only error that
can escape is the one raised by `loadRole` — `analyzeDependencies`,
`checkNetworkExists` and `assembleContent` are total. -/
def processRole (rm : RM) (home : String) (probe : ProbeOutcome)
    (roleId : String) (mode : String) : Except String String :=
  match loadRole rm roleId with
  | .error e => .error e
  | .ok roleInfo =>
    .ok (assembleContent roleInfo
      (analyzeDependencies roleInfo.sections rm.load)
      (checkNetworkExists home probe roleId) mode)

/-! ### Characterisation of the bundle construction -/

/-- The contribution of one reference to one bucket: an entry exactly when
the protocol matches the bucket and the resolution succeeded. -/
def bucketFn (p : String) (load : Ref → Option String) (r : Ref) : Option Dep :=
  if r.protocol = p then (load r).map (fun c => ⟨r.resource, c⟩) else none

theorem buildBundle_acc (load : Ref → Option String) :
    ∀ (refs : List Ref) (acc : Bundle),
      refs.foldl (bundleStep load) acc =
        ⟨acc.thoughts ++ refs.filterMap (bucketFn "thought" load),
         acc.executions ++ refs.filterMap (bucketFn "execution" load),
         acc.knowledges ++ refs.filterMap (bucketFn "knowledge" load)⟩ := by
  intro refs
  induction refs with
  | nil => intro acc; simp
  | cons r rest ih =>
    intro acc
    rw [List.foldl_cons, ih]
    rcases hl : load r with _ | c
    · simp [bundleStep, bucketFn, hl, List.filterMap_cons]
    · by_cases h1 : r.protocol = "thought"
      · simp [bundleStep, bucketFn, hl, h1, List.filterMap_cons]
      · by_cases h2 : r.protocol = "execution"
        · simp [bundleStep, bucketFn, hl, h1, h2, List.filterMap_cons]
        · by_cases h3 : r.protocol = "knowledge"
          · simp [bundleStep, bucketFn, hl, h1, h2, h3, List.filterMap_cons]
          · simp [bundleStep, bucketFn, hl, h1, h2, h3, List.filterMap_cons]

/-- The bundle is, bucket by bucket, a `filterMap` over the extracted
references in their original order. -/
theorem buildBundle_eq (refs : List Ref) (load : Ref → Option String) :
    buildBundle refs load =
      ⟨refs.filterMap (bucketFn "thought" load),
       refs.filterMap (bucketFn "execution" load),
       refs.filterMap (bucketFn "knowledge" load)⟩ := by
  unfold buildBundle
  rw [buildBundle_acc]
  simp

theorem recognized_buckets_length (load : Ref → Option String) :
    ∀ refs : List Ref,
      (∀ r ∈ refs, r.protocol = "thought" ∨ r.protocol = "execution" ∨
        r.protocol = "knowledge") →
      (refs.filterMap (bucketFn "thought" load)).length +
        (refs.filterMap (bucketFn "execution" load)).length +
        (refs.filterMap (bucketFn "knowledge" load)).length =
      refs.length - (refs.filter (fun r => (load r).isNone)).length := by
  intro refs
  induction refs with
  | nil => intro h; simp [bucketFn]
  | cons r rest ih =>
    intro h
    have hr := h r (by simp)
    have hrest := ih (fun x hx => h x (by simp [hx]))
    have hfle : (rest.filter (fun r => (load r).isNone)).length ≤ rest.length :=
      List.length_filter_le _ _
    rcases hl : load r with _ | c
    · have hnone : ∀ p, bucketFn p load r = none := by
        intro p
        unfold bucketFn
        rw [hl]
        by_cases hp : r.protocol = p
        · rw [if_pos hp]; rfl
        · rw [if_neg hp]
      simp [List.filterMap_cons, hnone, List.filter_cons, hl]
      omega
    · have hsome : (load r).isNone = false := by rw [hl]; rfl
      simp only [List.filterMap_cons, List.filter_cons, hsome,
        Bool.false_eq_true, if_false]
      rcases hr with hp | hp | hp
      all_goals simp [bucketFn, hp, hl]
      all_goals omega

/-- Dropping the references with unrecognized protocol before resolution
does not change any bucket (`bucketFn` ignores them). -/
theorem filterMap_bucket_filter (p : String) (load : Ref → Option String)
    (hp : p = "thought" ∨ p = "execution" ∨ p = "knowledge") :
    ∀ refs : List Ref,
      (refs.filter (fun r => r.protocol == "thought" ||
        r.protocol == "execution" || r.protocol == "knowledge")).filterMap
          (bucketFn p load) =
      refs.filterMap (bucketFn p load) := by
  intro refs
  induction refs with
  | nil => simp
  | cons r rest ih =>
    by_cases hr : (r.protocol == "thought" || r.protocol == "execution" ||
        r.protocol == "knowledge") = true
    · rw [List.filter_cons, if_pos hr, List.filterMap_cons, List.filterMap_cons, ih]
    · have hpr : ¬ r.protocol = p := by
        intro hpp
        apply hr
        rcases hp with h | h | h <;> simp [hpp, h]
      have hnone : bucketFn p load r = none := by
        unfold bucketFn
        rw [if_neg hpr]
      rw [List.filter_cons, if_neg hr, List.filterMap_cons, hnone, ih]

/-- The bucket selected by a recognized protocol. -/
def bucketOf (p : String) (b : Bundle) : List Dep :=
  if p = "thought" then b.thoughts
  else if p = "execution" then b.executions
  else b.knowledges

theorem count_filterMap_bucket (p : String) (load : Ref → Option String)
    (res : String) (c : String) (hl : load ⟨p, res⟩ = some c) :
    ∀ refs : List Ref,
      (refs.filterMap (bucketFn p load)).count ⟨res, c⟩ =
        refs.count ⟨p, res⟩ := by
  intro refs
  induction refs with
  | nil => simp
  | cons r rest ih =>
    by_cases hreq : r = (⟨p, res⟩ : Ref)
    · subst hreq
      rw [List.filterMap_cons]
      have hb : bucketFn p load ⟨p, res⟩ = some ⟨res, c⟩ := by
        unfold bucketFn
        simp [hl]
      rw [hb]
      rw [List.count_cons, List.count_cons, ih]
      simp
    · rw [List.filterMap_cons]
      have hcnt : rest.count (⟨p, res⟩ : Ref) =
          (r :: rest).count (⟨p, res⟩ : Ref) := by
        rw [List.count_cons]
        simp [hreq]
      rcases hb : bucketFn p load r with _ | e
      · rw [ih, hcnt]
      · have hne : e ≠ (⟨res, c⟩ : Dep) := by
          intro he
          unfold bucketFn at hb
          by_cases hpp : r.protocol = p
          · rw [if_pos hpp] at hb
            rcases hlr : load r with _ | c'
            · rw [hlr] at hb; exact absurd hb (by simp)
            · rw [hlr, Option.map_some'] at hb
              have he2 := Option.some.inj hb
              rw [← he2] at he
              have hres : r.resource = res := by
                have := congrArg Dep.id he
                simpa using this
              apply hreq
              cases r with
              | mk rp rr =>
                simp only [Ref.mk.injEq]
                exact ⟨hpp, hres⟩
          · rw [if_neg hpp] at hb
            exact absurd hb (by simp)
        rw [List.count_cons, ih, hcnt]
        simp [hne]

/-- **C2** (counterexample): a successful resolution whose protocol is not
`thought`/`execution`/`knowledge` is dropped from the bundle, so the bundle
can hold fewer than N−M entries: here N = 1 references, M = 0 failures,
but the bundle is empty. -/
theorem claim_C2_counterexample :
    extractResourceReferences ⟨some "@tool://x", none, none⟩ =
      [⟨"tool", "x"⟩] ∧
    loadDependency (fun _ => .ok true (some "C")) ⟨"tool", "x"⟩ = some "C" ∧
    analyzeDependencies ⟨some "@tool://x", none, none⟩
      (fun _ => .ok true (some "C")) = ⟨[], [], []⟩ := by
  refine ⟨?_, by decide, ?_⟩
  · rw [← extractFromTextF_triple]
    decide
  · unfold analyzeDependencies
    rw [← extractFromTextF_triple]
    decide

/-- **C2** (amended): when every extracted reference carries a recognized
protocol, the bundle holds exactly the N−M successful resolutions,
partitioned by protocol, each bucket listing entries in the original
first-appearance order of the references (the `filterMap` over the scanned
reference list); and `analyzeDependencies` is a total function. -/
theorem claim_C2_amended (sections : Sections) (rm : String → LoadOutcome)
    (hrec : ∀ r ∈ extractResourceReferences sections,
      r.protocol = "thought" ∨ r.protocol = "execution" ∨
        r.protocol = "knowledge") :
    analyzeDependencies sections rm =
      ⟨(extractResourceReferences sections).filterMap
        (bucketFn "thought" (loadDependency rm)),
       (extractResourceReferences sections).filterMap
        (bucketFn "execution" (loadDependency rm)),
       (extractResourceReferences sections).filterMap
        (bucketFn "knowledge" (loadDependency rm))⟩ ∧
    (analyzeDependencies sections rm).thoughts.length +
      (analyzeDependencies sections rm).executions.length +
      (analyzeDependencies sections rm).knowledges.length =
    (extractResourceReferences sections).length -
      ((extractResourceReferences sections).filter
        (fun r => (loadDependency rm r).isNone)).length := by
  have hchar := buildBundle_eq (extractResourceReferences sections)
    (loadDependency rm)
  refine ⟨hchar, ?_⟩
  unfold analyzeDependencies
  rw [hchar]
  exact recognized_buckets_length (loadDependency rm) _ hrec

/-- Witness for **C2** (amended): two references, one failing resolution;
the bundle holds exactly 2 − 1 = 1 entry. -/
theorem claim_C2_witness :
    analyzeDependencies ⟨some "@thought://a @execution://b", none, none⟩
        (fun u => if u = "@thought://a" then .ok true (some "A")
          else .ok false none) =
      ⟨[⟨"a", "A"⟩], [], []⟩ ∧
    (analyzeDependencies ⟨some "@thought://a @execution://b", none, none⟩
        (fun u => if u = "@thought://a" then .ok true (some "A")
          else .ok false none)).thoughts.length +
      (analyzeDependencies ⟨some "@thought://a @execution://b", none, none⟩
        (fun u => if u = "@thought://a" then .ok true (some "A")
          else .ok false none)).executions.length +
      (analyzeDependencies ⟨some "@thought://a @execution://b", none, none⟩
        (fun u => if u = "@thought://a" then .ok true (some "A")
          else .ok false none)).knowledges.length =
    (extractResourceReferences
        ⟨some "@thought://a @execution://b", none, none⟩).length -
      ((extractResourceReferences
          ⟨some "@thought://a @execution://b", none, none⟩).filter
        (fun r => (loadDependency (fun u => if u = "@thought://a"
          then .ok true (some "A") else .ok false none) r).isNone)).length := by
  constructor
  · unfold analyzeDependencies
    rw [← extractFromTextF_triple]
    decide
  · exact (claim_C2_amended _ _ (by
      rw [← extractFromTextF_triple]
      decide)).2

/-- **C7**: references with unrecognized protocols never appear in any
bundle bucket — resolving after first discarding them yields the same
bundle. -/
theorem claim_C7 (sections : Sections) (rm : String → LoadOutcome) :
    analyzeDependencies sections rm =
      buildBundle ((extractResourceReferences sections).filter
        (fun r => r.protocol == "thought" || r.protocol == "execution" ||
          r.protocol == "knowledge"))
        (loadDependency rm) := by
  unfold analyzeDependencies
  rw [buildBundle_eq, buildBundle_eq]
  rw [filterMap_bucket_filter _ _ (Or.inl rfl),
    filterMap_bucket_filter _ _ (Or.inr (Or.inl rfl)),
    filterMap_bucket_filter _ _ (Or.inr (Or.inr rfl))]

/-- **C10**: references are never de-duplicated: a reference with
recognized protocol occurring k times among the extracted references and
resolving to content `c` contributes k entries to its bucket. -/
theorem claim_C10 (sections : Sections) (rm : String → LoadOutcome)
    (p res c : String)
    (hp : p = "thought" ∨ p = "execution" ∨ p = "knowledge")
    (hl : loadDependency rm ⟨p, res⟩ = some c) :
    (bucketOf p (analyzeDependencies sections rm)).count ⟨res, c⟩ =
      (extractResourceReferences sections).count ⟨p, res⟩ := by
  unfold analyzeDependencies
  rw [buildBundle_eq]
  rcases hp with h | h | h
  · subst h
    unfold bucketOf
    rw [if_pos rfl]
    exact count_filterMap_bucket _ _ _ _ hl _
  · subst h
    unfold bucketOf
    rw [if_neg (by decide), if_pos rfl]
    exact count_filterMap_bucket _ _ _ _ hl _
  · subst h
    unfold bucketOf
    rw [if_neg (by decide), if_neg (by decide)]
    exact count_filterMap_bucket _ _ _ _ hl _

/-- Witness for **C10**: the same `@!thought://t` token appears twice (once
with `!`), is extracted twice, and the bucket holds two entries. -/
theorem claim_C10_witness :
    (extractResourceReferences
        ⟨some "@!thought://t go", some "see @thought://t", none⟩).count
      ⟨"thought", "t"⟩ = 2 ∧
    (bucketOf "thought" (analyzeDependencies
        ⟨some "@!thought://t go", some "see @thought://t", none⟩
        (fun _ => .ok true (some "T")))).count ⟨"t", "T"⟩ = 2 := by
  have h2 : (extractResourceReferences
      ⟨some "@!thought://t go", some "see @thought://t", none⟩).count
        (⟨"thought", "t"⟩ : Ref) = 2 := by
    rw [← extractFromTextF_triple]
    decide
  refine ⟨h2, ?_⟩
  rw [claim_C10 _ _ "thought" "t" "T" (Or.inl rfl) (by decide)]
  exact h2

/-! ## Characterization of `splitFirstBy` under case-sensitive equality -/

theorem litPre_eqCS_iff (pat : List Char) :
    ∀ l : List Char, litPre eqCS pat l = true ↔ pat <+: l := by
  induction pat with
  | nil => intro l; simp [litPre]
  | cons p ps ih =>
    intro l
    cases l with
    | nil => simp [litPre]
    | cons c cs =>
      rw [litPre]
      constructor
      · intro h
        have h1 : eqCS p c = true ∧ litPre eqCS ps cs = true := by
          simpa using h
        have hpc : p = c := by simpa [eqCS] using h1.1
        rcases (ih cs).mp h1.2 with ⟨t, ht⟩
        exact ⟨t, by rw [List.cons_append, hpc, ht]⟩
      · intro h
        rcases h with ⟨t, ht⟩
        rw [List.cons_append] at ht
        have hyz := List.cons_eq_cons.mp ht
        rw [Bool.and_eq_true]
        exact ⟨by simp [eqCS, hyz.1], (ih cs).mpr ⟨t, hyz.2⟩⟩

theorem splitFirstBy_some (pat : List Char) :
    ∀ l a b : List Char, splitFirstBy eqCS pat l = some (a, b) →
      l = a ++ pat ++ b ∧
        ∀ a' b' : List Char, l = a' ++ pat ++ b' → a.length ≤ a'.length := by
  intro l
  induction l with
  | nil =>
    intro a b h
    by_cases hp : pat.isEmpty
    · have hpe : pat = [] := by
        cases pat with
        | nil => rfl
        | cons x xs => simp [List.isEmpty] at hp
      rw [splitFirstBy, if_pos hp] at h
      have hab := Option.some.inj h
      have ha : ([] : List Char) = a := congrArg Prod.fst hab
      have hb : ([] : List Char) = b := congrArg Prod.snd hab
      refine ⟨by rw [← ha, ← hb, hpe]; rfl, ?_⟩
      intro a' b' hd
      rw [← ha]
      simp
    · rw [splitFirstBy, if_neg hp] at h
      exact absurd h (by simp)
  | cons c rest ih =>
    intro a b h
    by_cases hl : litPre eqCS pat (c :: rest) = true
    · rw [splitFirstBy, if_pos hl] at h
      have hab := Option.some.inj h
      have ha : ([] : List Char) = a := congrArg Prod.fst hab
      have hb : (c :: rest).drop pat.length = b := congrArg Prod.snd hab
      have hpre : pat <+: c :: rest := (litPre_eqCS_iff pat (c :: rest)).mp hl
      rcases hpre with ⟨t, ht⟩
      have hdrop : (c :: rest).drop pat.length = t := by
        rw [← ht, List.drop_left]
      refine ⟨?_, ?_⟩
      · rw [← ha, ← hb, hdrop, List.nil_append, ht]
      · intro a' b' hd
        rw [← ha]
        simp
    · rw [splitFirstBy, if_neg hl] at h
      rcases hs : splitFirstBy eqCS pat rest with _ | ⟨a0, b0⟩
      · rw [hs] at h
        exact absurd h (by simp)
      · rw [hs] at h
        have hab := Option.some.inj h
        have ha : c :: a0 = a := congrArg Prod.fst hab
        have hb : b0 = b := congrArg Prod.snd hab
        rcases ih a0 b0 hs with ⟨hdec, hmin⟩
        refine ⟨?_, ?_⟩
        · rw [← ha, ← hb, hdec]
          simp
        · intro a' b' hd
          cases a' with
          | nil =>
            exfalso
            apply hl
            rw [litPre_eqCS_iff]
            have hd' : c :: rest = pat ++ b' := by simpa using hd
            exact ⟨b', hd'.symm⟩
          | cons c' a'' =>
            simp only [List.cons_append] at hd
            have hcd := List.cons_eq_cons.mp hd
            have := hmin a'' b' hcd.2
            rw [← ha]
            simp only [List.length_cons]
            omega

theorem splitFirstBy_none (pat : List Char) :
    ∀ l : List Char, splitFirstBy eqCS pat l = none →
      ∀ a b : List Char, l ≠ a ++ pat ++ b := by
  intro l
  induction l with
  | nil =>
    intro h a b hd
    by_cases hp : pat.isEmpty
    · rw [splitFirstBy, if_pos hp] at h
      exact absurd h (by simp)
    · have hlen := congrArg List.length hd
      simp only [List.length_nil, List.length_append] at hlen
      have hpe : pat = [] := List.eq_nil_of_length_eq_zero (by omega)
      rw [hpe] at hp
      simp [List.isEmpty] at hp
  | cons c rest ih =>
    intro h a b hd
    by_cases hl : litPre eqCS pat (c :: rest) = true
    · rw [splitFirstBy, if_pos hl] at h
      exact absurd h (by simp)
    · rw [splitFirstBy, if_neg hl] at h
      rcases hs : splitFirstBy eqCS pat rest with _ | ⟨a0, b0⟩
      · cases a with
        | nil =>
          apply hl
          rw [litPre_eqCS_iff]
          have hd' : c :: rest = pat ++ b := by simpa using hd
          exact ⟨b, hd'.symm⟩
        | cons c' a'' =>
          simp only [List.cons_append] at hd
          exact ih hs a'' b (List.cons_eq_cons.mp hd).2
      · rw [hs] at h
        exact absurd h (by simp)

theorem splitFirstBy_complete (pat l a b : List Char)
    (hd : l = a ++ pat ++ b)
    (hmin : ∀ a' b' : List Char, l = a' ++ pat ++ b' →
      a.length ≤ a'.length) :
    splitFirstBy eqCS pat l = some (a, b) := by
  rcases hs : splitFirstBy eqCS pat l with _ | ⟨a0, b0⟩
  · exact absurd hd (splitFirstBy_none pat l hs a b)
  · rcases splitFirstBy_some pat l a0 b0 hs with ⟨hdec, hmin0⟩
    have h1 : a0.length ≤ a.length := hmin0 a b hd
    have h2 : a.length ≤ a0.length := hmin a0 b0 hdec
    have hlen : a.length = a0.length := le_antisymm h2 h1
    have hta : l.take a.length = a := by
      rw [hd, List.append_assoc]
      exact List.take_left a (pat ++ b)
    have hta0 : l.take a0.length = a0 := by
      rw [hdec, List.append_assoc]
      exact List.take_left a0 (pat ++ b0)
    have ha : a = a0 := by
      rw [← hta, hlen, hta0]
    have hb : b = b0 := by
      have heq := hd.symm.trans hdec
      rw [← ha] at heq
      exact List.append_cancel_left heq
    rw [ha, hb]

/-- The result of `splitFirstBy` is the leftmost occurrence. -/
theorem splitFirst_min (pat l a b : List Char)
    (hs : splitFirstBy eqCS pat l = some (a, b)) :
    ∀ a' b' : List Char, l = a' ++ pat ++ b' → a.length ≤ a'.length :=
  fun a' b' h => (splitFirstBy_some pat l a b hs).2 a' b' h

/-- The literal `<role>` delimiter. -/
def roleOpen : List Char := ['<', 'r', 'o', 'l', 'e', '>']

/-- The literal `</role>` delimiter. -/
def roleClose : List Char := ['<', '/', 'r', 'o', 'l', 'e', '>']

theorem matchRole_spans (l : List Char) :
    matchRole l = lazySpan eqCS roleOpen roleClose l := rfl

theorem lazySpan_of_splits {eqc : Char → Char → Bool}
    {openPat closePat l a r m b : List Char}
    (h1 : splitFirstBy eqc openPat l = some (a, r))
    (h2 : splitFirstBy eqc closePat r = some (m, b)) :
    lazySpan eqc openPat closePat l = some m := by
  simp only [lazySpan, h1, h2]

theorem lazySpan_none_open {eqc : Char → Char → Bool}
    {openPat closePat l : List Char}
    (h1 : splitFirstBy eqc openPat l = none) :
    lazySpan eqc openPat closePat l = none := by
  simp only [lazySpan, h1]

theorem lazySpan_none_close {eqc : Char → Char → Bool}
    {openPat closePat l a r : List Char}
    (h1 : splitFirstBy eqc openPat l = some (a, r))
    (h2 : splitFirstBy eqc closePat r = none) :
    lazySpan eqc openPat closePat l = none := by
  simp only [lazySpan, h1, h2]

/-- Modelled from the spec: "extract the substring enclosed by the outermost
`<role>...</role>` delimiters (the span from the first opening delimiter to
the last matching closing delimiter)".  The last `</role>` is located as the
first occurrence of the reversed delimiter in the reversed text. -/
def outerSpan (l : List Char) : Option (List Char) :=
  match splitFirstBy eqCS roleOpen l with
  | none => none
  | some (_, afterOpen) =>
    match splitFirstBy eqCS roleClose.reverse afterOpen.reverse with
    | none => none
    | some (_, preRev) => some preRev.reverse

/-- Modelled from the spec: `parseDPMLContent` reading the span between the
outermost delimiters (first `<role>`, last `</role>`). -/
def parseDPMLOuter (content : String) : Sections :=
  match outerSpan content.data with
  | some roleContent =>
    ⟨(extractSection roleContent "personality".data).map
      (fun l => (⟨l⟩ : String)),
     (extractSection roleContent "principle".data).map
      (fun l => (⟨l⟩ : String)),
     (extractSection roleContent "knowledge".data).map
      (fun l => (⟨l⟩ : String))⟩
  | none => ⟨none, none, none⟩

/-- **C4** (counterexample): the lazy regex stops at the FIRST `</role>`,
yielding an empty span and no knowledge section, while the spec's
outermost-delimiter reading spans to the LAST `</role>` and finds
`knowledge = "k"`. -/
theorem claim_C4_counterexample :
    parseDPMLContent "<role></role><knowledge>k</knowledge></role>" =
      ⟨none, none, none⟩ ∧
    parseDPMLOuter "<role></role><knowledge>k</knowledge></role>" =
      ⟨none, none, some "k"⟩ ∧
    parseDPMLContent "<role></role><knowledge>k</knowledge></role>" ≠
      parseDPMLOuter "<role></role><knowledge>k</knowledge></role>" := by
  refine ⟨by decide, by decide, by decide⟩

/-- **C4** (amended): `parseDPMLContent` extracts the three sections from
the span delimited by the FIRST `<role>` and the FIRST `</role>` after it
(the leftmost lazy match), not the last closing delimiter; when the
delimiters are absent (no `<role>` occurrence, or no `</role>` occurrence),
all sections are empty and no error is raised. -/
theorem claim_C4_amended (content : String) :
    (∀ a m b : List Char,
      content.data = a ++ roleOpen ++ (m ++ roleClose ++ b) →
      (∀ a' r : List Char, content.data = a' ++ roleOpen ++ r →
        a.length ≤ a'.length) →
      (∀ m' b' : List Char, m ++ roleClose ++ b = m' ++ roleClose ++ b' →
        m.length ≤ m'.length) →
      parseDPMLContent content =
        ⟨(extractSection m "personality".data).map (fun l => (⟨l⟩ : String)),
         (extractSection m "principle".data).map (fun l => (⟨l⟩ : String)),
         (extractSection m "knowledge".data).map
          (fun l => (⟨l⟩ : String))⟩) ∧
    ((∀ a r : List Char, content.data ≠ a ++ roleOpen ++ r) →
      parseDPMLContent content = ⟨none, none, none⟩) ∧
    ((∀ a b : List Char, content.data ≠ a ++ roleClose ++ b) →
      parseDPMLContent content = ⟨none, none, none⟩) := by
  refine ⟨?_, ?_, ?_⟩
  · intro a m b hd hmina hminm
    have h1 : splitFirstBy eqCS roleOpen content.data =
        some (a, m ++ roleClose ++ b) :=
      splitFirstBy_complete roleOpen content.data a _ hd hmina
    have h2 : splitFirstBy eqCS roleClose (m ++ roleClose ++ b) =
        some (m, b) :=
      splitFirstBy_complete roleClose _ m b rfl hminm
    have hm : matchRole content.data = some m := by
      rw [matchRole_spans]
      exact lazySpan_of_splits h1 h2
    simp only [parseDPMLContent, hm]
  · intro hno
    rcases hs : splitFirstBy eqCS roleOpen content.data with _ | ⟨a0, r0⟩
    · have hm : matchRole content.data = none := by
        rw [matchRole_spans]
        exact lazySpan_none_open hs
      simp only [parseDPMLContent, hm]
    · exact absurd (splitFirstBy_some roleOpen content.data a0 r0 hs).1
        (hno a0 r0)
  · intro hno
    rcases hs : splitFirstBy eqCS roleOpen content.data with _ | ⟨a0, r0⟩
    · have hm : matchRole content.data = none := by
        rw [matchRole_spans]
        exact lazySpan_none_open hs
      simp only [parseDPMLContent, hm]
    · rcases hs2 : splitFirstBy eqCS roleClose r0 with _ | ⟨m0, b0⟩
      · have hm : matchRole content.data = none := by
          rw [matchRole_spans]
          exact lazySpan_none_close hs hs2
        simp only [parseDPMLContent, hm]
      · exfalso
        have hd0 := (splitFirstBy_some roleOpen content.data a0 r0 hs).1
        have hd2 := (splitFirstBy_some roleClose r0 m0 b0 hs2).1
        apply hno (a0 ++ roleOpen ++ m0) b0
        rw [hd0, hd2]
        simp [List.append_assoc]

/-- Witness for **C4** (amended): the personality after the first `</role>`
is not extracted; the section inside the first span is, trimmed. -/
theorem claim_C4_witness :
    parseDPMLContent
        "x<role><personality> p </personality></role><personality>q</personality>" =
      ⟨some "p", none, none⟩ := by
  have h := (claim_C4_amended
      "x<role><personality> p </personality></role><personality>q</personality>").1
    "x".data "<personality> p </personality>".data
    "<personality>q</personality>".data
    (by decide)
    (splitFirst_min roleOpen
      "x<role><personality> p </personality></role><personality>q</personality>".data
      "x".data
      "<personality> p </personality></role><personality>q</personality>".data
      (by decide))
    (splitFirst_min roleClose
      ("<personality> p </personality>".data ++ roleClose ++
        "<personality>q</personality>".data)
      "<personality> p </personality>".data
      "<personality>q</personality>".data
      (by decide))
  rw [h]
  decide

theorem string_append_data (s t : String) :
    (s ++ t).data = s.data ++ t.data := rfl

/-- **C3** (counterexample): a permission-denied probe outcome yields
`hasNetwork: false` with `networkPath` still set to the deterministic path
(not `null`) and NO error field — the inner `catch` swallows the error
before the outer `catch` (which would set `networkPath: null` and `error`)
can see it. -/
theorem claim_C3_counterexample :
    checkNetworkExists "/home/u" (.err "EACCES: permission denied")
        "writer" =
      ⟨false, some "/home/u/.promptx/cognition/writer/network.json", none⟩ ∧
    (checkNetworkExists "/home/u" (.err "EACCES: permission denied")
        "writer").networkPath ≠ none ∧
    (checkNetworkExists "/home/u" (.err "EACCES: permission denied")
        "writer").error = none := by
  refine ⟨by decide, by decide, by decide⟩

/-- **C3** (amended): `checkNetworkExists` reports `hasNetwork = true` iff
the access probe succeeds; on ANY probe failure (absence and permission
errors alike) it returns `hasNetwork = false` with `networkPath` still the
deterministic path and no error field; being a total function, it never
raises to the caller. -/
theorem claim_C3_amended (home roleId : String) (probe : ProbeOutcome) :
    ((checkNetworkExists home probe roleId).hasNetwork = true ↔
      probe = .ok) ∧
    (checkNetworkExists home probe roleId).networkPath =
      some (networkFilePath home roleId) ∧
    (checkNetworkExists home probe roleId).error = none := by
  cases probe with
  | ok => exact ⟨by simp [checkNetworkExists], rfl, rfl⟩
  | err m =>
    refine ⟨?_, rfl, rfl⟩
    simp [checkNetworkExists]

/-- **C5**: when initialization succeeds but the loader reports an
unsuccessful result, no content, or empty content, `processRole` rejects
with the `loadRole` error message, which contains the roleId as a
substring; and only `loadRole`'s failure escapes: whenever `loadRole`
succeeds, `processRole` returns a string — the later three stages are
total and cannot fail. -/
theorem claim_C5 (rm : RM) (home : String) (probe : ProbeOutcome)
    (roleId mode : String) :
    (∀ (success : Bool) (content : Option String),
      (if rm.initialized then Except.ok () else rm.initResult) =
        Except.ok () →
      rm.load ("@role://" ++ roleId) = .ok success content →
      (success = false ∨ content = none ∨ content = some "") →
      processRole rm home probe roleId mode =
        .error (roleLoadErrMsg roleId)) ∧
    roleId.data <:+: (roleLoadErrMsg roleId).data ∧
    (∀ doc : RoleDoc, loadRole rm roleId = .ok doc →
      processRole rm home probe roleId mode =
        .ok (assembleContent doc (analyzeDependencies doc.sections rm.load)
          (checkNetworkExists home probe roleId) mode)) := by
  refine ⟨?_, ?_, ?_⟩
  · intro success content hinit hload hbad
    have hlr : loadRole rm roleId = .error (roleLoadErrMsg roleId) := by
      rcases hbad with hb | hb | hb
      · subst hb
        simp [loadRole, hinit, hload]
      · subst hb
        cases success <;> simp [loadRole, hinit, hload]
      · subst hb
        cases success <;> simp [loadRole, hinit, hload]
    simp only [processRole, hlr]
  · refine ⟨"无法加载角色 ".data, " 的内容".data, ?_⟩
    simp [roleLoadErrMsg, string_append_data]
  · intro doc hok
    simp only [processRole, hok]

/-- Witness for **C5**: the loader reports `success: false` for ghost; the
error message contains "ghost". -/
theorem claim_C5_witness :
    processRole ⟨true, Except.ok (), fun _ => .ok false none⟩ "/h" .ok
        "ghost" "command" = .error (roleLoadErrMsg "ghost") ∧
    "ghost".data <:+: (roleLoadErrMsg "ghost").data := by
  have h := claim_C5 ⟨true, Except.ok (), fun _ => .ok false none⟩ "/h" .ok
    "ghost" "command"
  exact ⟨h.1 false none rfl rfl (Or.inl rfl), h.2.1⟩

theorem take2_ne (pre x suf t : String) (h2 : 2 ≤ pre.data.length)
    (hne : pre.data.take 2 ≠ t.data.take 2) : pre ++ x ++ suf ≠ t := by
  intro he
  apply hne
  have h1 := congrArg (fun s : String => s.data.take 2) he
  simp only at h1
  rw [string_append_data, string_append_data, List.append_assoc,
    List.take_append_of_le_length h2] at h1
  exact h1

/-- **C8**: a raw role text with zero `<role>` tags parses to empty
sections, its dependency analysis is the empty bundle, and assembly still
returns a string in which none of the three role-layer heading lines
(personality, principle, knowledge) occurs as a part. -/
theorem claim_C8 (raw id mode : String) (meta : List (String × String))
    (rm : String → LoadOutcome) (cog : CognitionStatus)
    (hno : ∀ a b : List Char, raw.data ≠ a ++ roleOpen ++ b) :
    parseDPMLContent raw = ⟨none, none, none⟩ ∧
    analyzeDependencies (parseDPMLContent raw) rm = ⟨[], [], []⟩ ∧
    ∀ part ∈ assembleParts ⟨id, raw, parseDPMLContent raw, meta⟩
        (analyzeDependencies (parseDPMLContent raw) rm) cog mode,
      part ≠ "## 🎭 角色人格" ∧ part ≠ "## 🔧 工作原则" ∧
        part ≠ "## 📚 专业知识" := by
  have hparse : parseDPMLContent raw = ⟨none, none, none⟩ := by
    rcases hs : splitFirstBy eqCS roleOpen raw.data with _ | ⟨a0, r0⟩
    · have hm : matchRole raw.data = none := by
        rw [matchRole_spans]
        exact lazySpan_none_open hs
      simp only [parseDPMLContent, hm]
    · exact absurd (splitFirstBy_some roleOpen raw.data a0 r0 hs).1
        (hno a0 r0)
  have hdeps : analyzeDependencies (⟨none, none, none⟩ : Sections) rm =
      ⟨[], [], []⟩ := rfl
  refine ⟨hparse, by rw [hparse]; exact hdeps, ?_⟩
  intro part hmem
  rw [hparse, hdeps] at hmem
  cases hcog : cog.hasNetwork <;> by_cases hmode : mode = "command" <;>
    simp [assembleParts, hcog, hmode, -List.mem_cons, -List.mem_append,
      -List.mem_singleton] at hmem <;>
    fin_cases hmem <;>
    refine ⟨?_, ?_, ?_⟩ <;>
    first
      | decide
      | exact take2_ne _ _ _ _ (by decide) (by decide)

/-- Witness for **C8**: a plain text with no `<role>` tag, the `command`
mode, a loader that would succeed, and no cognition network. -/
theorem claim_C8_witness :
    parseDPMLContent "plain text" = ⟨none, none, none⟩ ∧
    analyzeDependencies (parseDPMLContent "plain text")
      (fun _ => .ok true (some "X")) = ⟨[], [], []⟩ ∧
    ∀ part ∈ assembleParts
        ⟨"writer", "plain text", parseDPMLContent "plain text", []⟩
        (analyzeDependencies (parseDPMLContent "plain text")
          (fun _ => .ok true (some "X"))) ⟨false, none, none⟩ "command",
      part ≠ "## 🎭 角色人格" ∧ part ≠ "## 🔧 工作原则" ∧
        part ≠ "## 📚 专业知识" :=
  claim_C8 "plain text" "writer" "command" []
    (fun _ => .ok true (some "X")) ⟨false, none, none⟩
    (splitFirstBy_none roleOpen "plain text".data (by decide))

/-- **C9**: `assembleContent` is a pure total function of its four
arguments: it returns a string for every well-typed input, and it reads
only `roleInfo.id`, `roleInfo.sections`, the `thoughts` and `executions`
buckets, and `cognitionData.hasNetwork` — two calls whose inputs agree on
those components (in particular, any two calls with identical inputs)
return identical strings. -/
theorem claim_C9 (d1 d2 : RoleDoc) (b1 b2 : Bundle)
    (c1 c2 : CognitionStatus) (mode : String)
    (hid : d1.id = d2.id) (hsec : d1.sections = d2.sections)
    (ht : b1.thoughts = b2.thoughts) (he : b1.executions = b2.executions)
    (hn : c1.hasNetwork = c2.hasNetwork) :
    assembleContent d1 b1 c1 mode = assembleContent d2 b2 c2 mode := by
  cases d1
  cases d2
  cases b1
  cases b2
  cases c1
  cases c2
  simp only at hid hsec ht he hn
  subst hid
  subst hsec
  subst ht
  subst he
  subst hn
  rfl

/-- Witness for **C9**: two inputs differing in `raw`, `metadata`, the
`knowledges` bucket, `networkPath` and `error` produce identical output. -/
theorem claim_C9_witness :
    assembleContent ⟨"w", "r1", ⟨none, none, none⟩, []⟩
        ⟨[], [], [⟨"k", "K"⟩]⟩ ⟨true, some "p", none⟩ "command" =
      assembleContent ⟨"w", "r2", ⟨none, none, none⟩, [("a", "b")]⟩
        ⟨[], [], []⟩ ⟨true, none, some "e"⟩ "command" :=
  claim_C9 ⟨"w", "r1", ⟨none, none, none⟩, []⟩
    ⟨"w", "r2", ⟨none, none, none⟩, [("a", "b")]⟩
    ⟨[], [], [⟨"k", "K"⟩]⟩ ⟨[], [], []⟩
    ⟨true, some "p", none⟩ ⟨true, none, some "e"⟩ "command"
    rfl rfl rfl rfl rfl

end Px2cc

